import Mathlib

/-!
Verification of the crcgen combinatorial CRC generator core.

The definitions below are a shallow embedding of the Python sources:
the bit-expression model (`Bit`, `ConstBit`, `XOR` of `generator.py`),
the XOR simplifier (`XOR.flatten`, `XOR.optimize`), the register unroll
algorithm (`CrcGen.__gen`), the bit-serial reference (`CrcReference.crc`
of `reference.py`), and the polynomial conversion utilities
(`poly2int`, `int2poly`, `bitreverse` of `util.py`).
-/

/-- The tagged bit-expression tree: `Bit(name, index)`, `ConstBit(value)`
and `XOR(*items)` of `generator.py`. -/
inductive BitExpr where
  | bit : String → Nat → BitExpr
  | const : Bool → BitExpr
  | xor : List BitExpr → BitExpr

mutual

/-- Structural (value) equality test of two expressions, mirroring the
dataclass value equality used by the Python code. -/
def beqExpr : BitExpr → BitExpr → Bool
  | .bit n i, .bit m j => n == m && i == j
  | .const a, .const b => a == b
  | .xor l, .xor m => beqExprList l m
  | _, _ => false

def beqExprList : List BitExpr → List BitExpr → Bool
  | [], [] => true
  | x :: xs, y :: ys => beqExpr x y && beqExprList xs ys
  | _, _ => false

end

mutual

theorem beqExpr_iff : (a b : BitExpr) → (beqExpr a b = true ↔ a = b)
  | .bit n i, .bit m j => by simp [beqExpr]
  | .bit n i, .const b => by simp [beqExpr]
  | .bit n i, .xor m => by simp [beqExpr]
  | .const a, .bit m j => by simp [beqExpr]
  | .const a, .const b => by simp [beqExpr]
  | .const a, .xor m => by simp [beqExpr]
  | .xor l, .bit m j => by simp [beqExpr]
  | .xor l, .const b => by simp [beqExpr]
  | .xor l, .xor m => by rw [beqExpr]; rw [beqExprList_iff l m]; simp

theorem beqExprList_iff : (a b : List BitExpr) → (beqExprList a b = true ↔ a = b)
  | [], [] => by simp [beqExprList]
  | [], y :: ys => by simp [beqExprList]
  | x :: xs, [] => by simp [beqExprList]
  | x :: xs, y :: ys => by
      rw [beqExprList, Bool.and_eq_true, beqExpr_iff x y, beqExprList_iff xs ys]
      simp

end

instance : DecidableEq BitExpr := fun a b => decidable_of_iff _ (beqExpr_iff a b)

/-- Decimal digit character, as used by Python string formatting. -/
def digitChar : Nat → Char
  | 0 => '0'
  | 1 => '1'
  | 2 => '2'
  | 3 => '3'
  | 4 => '4'
  | 5 => '5'
  | 6 => '6'
  | 7 => '7'
  | 8 => '8'
  | 9 => '9'
  | _ => '?'

/-- Decimal digit string of a natural number, most significant digit first. -/
def natDigits (n : Nat) : List Char :=
  if h : n < 10 then [digitChar n]
  else natDigits (n / 10) ++ [digitChar (n % 10)]
termination_by n
decreasing_by exact Nat.div_lt_self (by omega) (by omega)

/-- Zero padding of a decimal number to (at least) seven characters, the
Python format `f"{index:07}"` used by `Bit.sortKey`. -/
def pad7 (n : Nat) : List Char :=
  List.replicate (7 - (natDigits n).length) '0' ++ natDigits n

/-- Joining of sort keys with a `"__"` separator, as in `XOR.sortKey`. -/
def joinKeys : List (List Char) → List Char
  | [] => []
  | [k] => k
  | k :: ks => k ++ '_' :: '_' :: joinKeys ks

mutual

/-- The deterministic sort key of an expression (`sortKey` methods of
`generator.py`), as a character list. -/
def sortKeyChars : BitExpr → List Char
  | .bit name i => name.data ++ '_' :: pad7 i
  | .const v => if v then ['1'] else ['0']
  | .xor items => joinKeys (sortKeyList items)

def sortKeyList : List BitExpr → List (List Char)
  | [] => []
  | x :: xs => sortKeyChars x :: sortKeyList xs

end

/-- Lexicographic comparison of character lists by code point, the order
Python uses to compare the sort-key strings. -/
def charListLe : List Char → List Char → Bool
  | [], _ => true
  | _ :: _, [] => false
  | a :: as, b :: bs =>
    if a.toNat < b.toNat then true
    else if b.toNat < a.toNat then false
    else charListLe as bs

/-- Operand order used by the lexicographic sort: ascending `sortKey`. -/
def keyLe (a b : BitExpr) : Prop :=
  charListLe (sortKeyChars a) (sortKeyChars b) = true

instance : DecidableRel keyLe := fun a b =>
  inferInstanceAs (Decidable (_ = true))

mutual

/-- Flattening of one expression into an operand list: `AbstractBit.flatten`
returns the singleton, `XOR.flatten` returns the flattened sub-operands. -/
def flattenOne : BitExpr → List BitExpr
  | .bit n i => [.bit n i]
  | .const v => [.const v]
  | .xor items => flattenList items

def flattenList : List BitExpr → List BitExpr
  | [] => []
  | x :: xs => flattenOne x ++ flattenList xs

end

/-- Value of an expression node after `flatten` ran on it: only an `XOR`
node changes, its operand list being replaced by the flattened list. -/
def BitExpr.flatten : BitExpr → BitExpr
  | .xor items => .xor (flattenList items)
  | e => e

/-- Test for a `Bit` operand, mirroring `isinstance(item, Bit)`. -/
def isBitB : BitExpr → Bool
  | .bit _ _ => true
  | _ => false

/-- Test for a `ConstBit` operand, mirroring `isinstance(item, ConstBit)`. -/
def isConstB : BitExpr → Bool
  | .const _ => true
  | _ => false

/-- Distinct values of a list in first-occurrence order: the key order of
the Python `haveBits` dict built by `XOR.optimize`. -/
def firstOccs : List BitExpr → List BitExpr
  | [] => []
  | x :: xs => x :: firstOccs (xs.filter (fun y => !(y == x)))
termination_by l => l.length
decreasing_by
  simp only [List.length_cons]
  exact Nat.lt_succ_of_le (List.length_filter_le _ _)

/-- Value of the operand list produced by `XOR.optimize` of `generator.py`:
non-leaf operands are kept, `Bit` operands are kept iff their occurrence
count is odd, constant zeros are dropped, one constant one is kept iff the
count of ones is odd, the result is optionally sorted by `sortKey`, and an
empty result becomes the single operand `ConstBit(0)`. -/
def XOR.optimizeItems (items : List BitExpr) (sortLex : Bool) : List BitExpr :=
  let others := items.filter (fun e => !isBitB e && !isConstB e)
  let oddBits := (firstOccs (items.filter isBitB)).filter
    (fun b => items.count b % 2 == 1)
  let ones := if items.count (.const true) % 2 == 1 then [BitExpr.const true] else []
  let newItems := others ++ oddBits ++ ones
  let newItems2 := if sortLex then newItems.insertionSort keyLe else newItems
  if newItems2.isEmpty then [BitExpr.const false] else newItems2

/-- Value of an expression node after `optimize(sortLex)` ran on it: only
an `XOR` node changes (`AbstractBit.optimize` is a no-op). -/
def BitExpr.optimizeNode (sortLex : Bool) : BitExpr → BitExpr
  | .xor items => .xor (XOR.optimizeItems items sortLex)
  | e => e

/-- Per-bit flattening of a Word (`Word.flatten`). -/
def Word.flatten (w : List BitExpr) : List BitExpr :=
  w.map BitExpr.flatten

/-- Per-bit simplification of a Word (`Word.optimize`). -/
def Word.optimize (sortLex : Bool) (w : List BitExpr) : List BitExpr :=
  w.map (BitExpr.optimizeNode sortLex)

/-- Configuration of one generator run (`CrcGen.__init__`). -/
structure CrcGen where
  P : Nat
  nrCrcBits : Nat
  nrDataBits : Nat
  shiftRight : Bool
  optimize : Nat

def CrcGen.OPT_FLATTEN : Nat := 1
def CrcGen.OPT_ELIMINATE : Nat := 2
def CrcGen.OPT_LEX : Nat := 4
def CrcGen.OPT_NONE : Nat := 0
def CrcGen.OPT_ALL : Nat := 7

/-- The helper `optimize(word, sort)` nested in `CrcGen.__gen`: flatten if
`OPT_FLATTEN` is set, then eliminate if `OPT_ELIMINATE` is set, sorting
lexicographically iff `sort` is requested and `OPT_LEX` is set. -/
def CrcGen.optWord (g : CrcGen) (word : List BitExpr) (sort : Bool) : List BitExpr :=
  let w := if g.optimize &&& CrcGen.OPT_FLATTEN ≠ 0 then Word.flatten word else word
  if g.optimize &&& CrcGen.OPT_ELIMINATE ≠ 0 then
    Word.optimize (sort && decide (g.optimize &&& CrcGen.OPT_LEX ≠ 0)) w
  else w

/-- The helper `xor_P(dataBit, queryBit, bitNr)` of `CrcGen.__gen`. -/
def CrcGen.xorP (P : Nat) (dataBit queryBit : BitExpr) (bitNr : Nat) : BitExpr :=
  if (P >>> bitNr) &&& 1 = 1 then .xor [dataBit, queryBit] else dataBit

/-- One right-shift register step of `CrcGen.__gen`. -/
def CrcGen.stepRight (P nrCrcBits : Nat) (word : List BitExpr) (dataBit : BitExpr) :
    List BitExpr :=
  (List.range nrCrcBits).map fun j =>
    let stateBit := if j < nrCrcBits - 1 then word.getD (j + 1) (.const false)
      else .const false
    let queryBit := BitExpr.xor [word.getD 0 (.const false), dataBit]
    CrcGen.xorP P stateBit queryBit j

/-- One left-shift register step of `CrcGen.__gen`. -/
def CrcGen.stepLeft (P nrCrcBits : Nat) (word : List BitExpr) (dataBit : BitExpr) :
    List BitExpr :=
  (List.range nrCrcBits).map fun j =>
    let stateBit := if 0 < j then word.getD (j - 1) (.const false) else .const false
    let queryBit := BitExpr.xor [word.getD (nrCrcBits - 1) (.const false), dataBit]
    CrcGen.xorP P stateBit queryBit j

/-- The register unroll algorithm `CrcGen.__gen`: validation, the shift
loop over all data bits (most-significant-first for left shift,
least-significant-first for right shift) with per-step optimization, and
the final optimization pass with `sort=True`. -/
def CrcGen.gen (g : CrcGen) (dataVarName crcVarName : String) :
    Except String (List BitExpr) :=
  if g.nrCrcBits < 1 ∨ g.nrDataBits < 1 then
    .error "Invalid number of bits."
  else
    let inData := (List.range g.nrDataBits).map (BitExpr.bit dataVarName)
    let inCrc := (List.range g.nrCrcBits).map (BitExpr.bit crcVarName)
    let word :=
      if g.shiftRight then
        (List.range g.nrDataBits).foldl
          (fun w i =>
            g.optWord (CrcGen.stepRight g.P g.nrCrcBits w (inData.getD i (.const false)))
              false)
          inCrc
      else
        (List.range g.nrDataBits).reverse.foldl
          (fun w i =>
            g.optWord (CrcGen.stepLeft g.P g.nrCrcBits w (inData.getD i (.const false)))
              false)
          inCrc
    .ok (g.optWord word true)

/-- The polynomial range check performed by `main()` in `main.py` before
generation starts, followed by the generator itself. -/
def mainGenerate (g : CrcGen) (dataVarName crcVarName : String) :
    Except String (List BitExpr) :=
  if g.P > (1 <<< g.nrCrcBits) - 1 then
    .error "Invalid polynomial. It is bigger than the CRC width."
  else g.gen dataVarName crcVarName

/-- One iteration of the right-shift loop of `CrcReference.crc`, on the
`(crc, data)` pair. -/
def refStepRight (polynomial nrCrcBits : Nat) (p : Nat × Nat) : Nat × Nat :=
  let crcMask := (1 <<< nrCrcBits) - 1
  let c := p.1 ^^^ (p.2 &&& 1)
  let d := p.2 >>> 1
  let c := if c &&& 1 ≠ 0 then ((c >>> 1) ^^^ polynomial) &&& crcMask
    else (c >>> 1) &&& crcMask
  (c, d)

/-- One iteration of the left-shift loop of `CrcReference.crc`, on the
`(crc, data)` pair. -/
def refStepLeft (polynomial nrCrcBits nrDataBits : Nat) (p : Nat × Nat) : Nat × Nat :=
  let crcMask := (1 <<< nrCrcBits) - 1
  let msb := 1 <<< (nrCrcBits - 1)
  let c := p.1 ^^^ (((p.2 >>> (nrDataBits - 1)) &&& 1) <<< (nrCrcBits - 1))
  let d := p.2 <<< 1
  let c := if c &&& msb ≠ 0 then ((c <<< 1) ^^^ polynomial) &&& crcMask
    else (c <<< 1) &&& crcMask
  (c, d)

/-- The generic bit-serial CRC reference implementation
`CrcReference.crc` of `reference.py`. -/
def CrcReference.crc (crc data polynomial nrCrcBits nrDataBits : Nat)
    (shiftRight : Bool) : Nat :=
  if shiftRight then
    ((List.range nrDataBits).foldl (fun p _ => refStepRight polynomial nrCrcBits p)
      (crc, data)).1
  else
    ((List.range nrDataBits).foldl (fun p _ => refStepLeft polynomial nrCrcBits nrDataBits p)
      (crc, data)).1

mutual

/-- Boolean value of an expression under an assignment of the named
input bits. -/
def BitExpr.eval (env : String → Nat → Bool) : BitExpr → Bool
  | .bit n i => env n i
  | .const v => v
  | .xor items => evalXList env items

def evalXList (env : String → Nat → Bool) : List BitExpr → Bool
  | [] => false
  | x :: xs => (BitExpr.eval env x).xor (evalXList env xs)

end

/-- The assignment binding `Bit(crcVarName, i)` to bit `i` of `crc` and
`Bit(dataVarName, i)` to bit `i` of `data`. -/
def mkEnv (crcVarName dataVarName : String) (crc data : Nat) :
    String → Nat → Bool :=
  fun name i =>
    if name = crcVarName then crc.testBit i
    else if name = dataVarName then data.testBit i
    else false

/-- Assembly of a Word value from its bit expressions,
least-significant-first. -/
def evalWord (env : String → Nat → Bool) : List BitExpr → Nat
  | [] => 0
  | b :: rest => (if b.eval env then 1 else 0) + 2 * evalWord env rest

/-- Loop of `bitreverse` in `util.py`. -/
def bitreverseAux : Nat → Nat → Nat → Nat
  | 0, _, ret => ret
  | n + 1, v, ret => bitreverseAux n (v >>> 1) ((ret <<< 1) ||| (v &&& 1))

/-- Reversal of the low `nrBits` bits of an integer (`util.bitreverse`). -/
def bitreverse (value nrBits : Nat) : Nat :=
  bitreverseAux nrBits value 0

/-- The whitespace characters of Python `str.isspace` (and so of
`str.strip` and of the regex `\\s` used by `re.subn` in `poly2int`):
the ASCII controls 0x09-0x0d, 0x1c-0x1f and the space, plus the Unicode
whitespace code points. -/
def pySpace (c : Char) : Bool :=
  let n := c.toNat
  (9 ≤ n && n ≤ 13) || (28 ≤ n && n ≤ 32) || n == 133 || n == 160 ||
  n == 0x1680 || (0x2000 ≤ n && n ≤ 0x200a) || n == 0x2028 || n == 0x2029 ||
  n == 0x202f || n == 0x205f || n == 0x3000

/-- Removal of leading and trailing whitespace (Python `str.strip`). -/
def stripChars (cs : List Char) : List Char :=
  (((cs.dropWhile pySpace).reverse).dropWhile pySpace).reverse

/-- Lower-casing of a string (Python `str.lower`), restricted to ASCII:
faithful for `poly2int` because no character outside ASCII lower-cases
onto the digits, `a`-`f`, `x`, `+`, `^`, `_` or whitespace that the
parse can accept (checked exhaustively over all code points). -/
def lowerChars (cs : List Char) : List Char :=
  cs.map Char.toLower

/-- First code points of the 66 runs of consecutive Unicode decimal
digits 0-9 (category Nd); the digit value of a character in a run is its
distance from the run start. Python `int()` accepts every such character
as the corresponding digit. -/
def ndRunStarts : List Nat :=
  [0x30, 0x660, 0x6f0, 0x7c0, 0x966, 0x9e6, 0xa66, 0xae6, 0xb66, 0xbe6,
   0xc66, 0xce6, 0xd66, 0xde6, 0xe50, 0xed0, 0xf20, 0x1040, 0x1090, 0x17e0,
   0x1810, 0x1946, 0x19d0, 0x1a80, 0x1a90, 0x1b50, 0x1bb0, 0x1c40, 0x1c50,
   0xa620, 0xa8d0, 0xa900, 0xa9d0, 0xa9f0, 0xaa50, 0xabf0, 0xff10, 0x104a0,
   0x10d30, 0x11066, 0x110f0, 0x11136, 0x111d0, 0x112f0, 0x11450, 0x114d0,
   0x11650, 0x116c0, 0x11730, 0x118e0, 0x11950, 0x11c50, 0x11d50, 0x11da0,
   0x16a60, 0x16ac0, 0x16b50, 0x1d7ce, 0x1d7d8, 0x1d7e2, 0x1d7ec, 0x1d7f6,
   0x1e140, 0x1e2f0, 0x1e950, 0x1fbf0]

/-- Unicode decimal digit value of a character (`unicodedata.decimal`). -/
def decDigitVal (c : Char) : Option Nat :=
  (ndRunStarts.find? (fun s => s ≤ c.toNat && c.toNat < s + 10)).map
    (fun s => c.toNat - s)

/-- The normalization Python `int()` applies to a `str` before parsing
(CPython `_PyUnicode_TransformDecimalAndSpaceToASCII`): ASCII characters
pass through, a non-ASCII decimal digit becomes the ASCII digit of its
value, non-ASCII whitespace becomes a space, and any other non-ASCII
character makes the conversion fail. -/
def pyNormalize : List Char → Option (List Char)
  | [] => some []
  | c :: cs =>
    match (if c.toNat < 128 then some c
           else match decDigitVal c with
             | some d => some (digitChar d)
             | none => if pySpace c then some ' ' else none) with
    | none => none
    | some c2 =>
      match pyNormalize cs with
      | none => none
      | some cs2 => some (c2 :: cs2)

/-- The ASCII whitespace `int()` allows around a literal (C `isspace`):
0x09-0x0d and the space, but not 0x1c-0x1f. -/
def intSpace (c : Char) : Bool :=
  let n := c.toNat
  (9 ≤ n && n ≤ 13) || n == 32

/-- Digit value of an ASCII character in the given base, per the digit
table of CPython `PyLong_FromString`: `0`-`9`, then letters valued from
10, accepted when below the base. -/
def pyDigitVal (base : Nat) (c : Char) : Option Nat :=
  let n := c.toNat
  let v := if 48 ≤ n && n ≤ 57 then some (n - 48)
    else if 97 ≤ n && n ≤ 122 then some (n - 87)
    else if 65 ≤ n && n ≤ 90 then some (n - 55)
    else none
  match v with
  | some d => if d < base then some d else none
  | none => none

/-- The digit run of an `int()` literal: digits with single underscores
allowed only between two digits; stops in front of the first other
character, fails on a misplaced underscore. -/
def pyRunAux (base : Nat) : Nat → List Char → Option (Nat × List Char)
  | acc, [] => some (acc, [])
  | acc, ['_'] => none
  | acc, '_' :: c2 :: cs2 =>
    match pyDigitVal base c2 with
    | some d => pyRunAux base (acc * base + d) cs2
    | none => none
  | acc, c :: cs =>
    match pyDigitVal base c with
    | some d => pyRunAux base (acc * base + d) cs
    | none => some (acc, c :: cs)

/-- The unsigned part of an `int()` literal: for base 16 an optional
`0x`/`0X` prefix with at most one underscore directly after it, then a
digit run starting with a digit, then only trailing ASCII whitespace. -/
def pyIntDigits (base : Nat) (cs : List Char) : Option Nat :=
  let cs1 := if base == 16 then
      match cs with
      | '0' :: 'x' :: rest =>
        (match rest with
         | '_' :: r2 => r2
         | _ => rest)
      | '0' :: 'X' :: rest =>
        (match rest with
         | '_' :: r2 => r2
         | _ => rest)
      | _ => cs
    else cs
  match cs1 with
  | c :: cs2 =>
    match pyDigitVal base c with
    | some d =>
      match pyRunAux base d cs2 with
      | some (v, rest) => if (rest.dropWhile intSpace).isEmpty then some v else none
      | none => none
    | none => none
  | [] => none

/-- Value of Python `int(s, base)` on a string, for base 10 or 16:
normalization, leading whitespace, an optional sign, the unsigned
literal; `none` models the raised `ValueError`. -/
def pyInt (base : Nat) (cs : List Char) : Option Int :=
  match pyNormalize cs with
  | none => none
  | some s =>
    match s.dropWhile intSpace with
    | '+' :: rest => (pyIntDigits base rest).map (fun n => (n : Int))
    | '-' :: rest => (pyIntDigits base rest).map (fun n => -(n : Int))
    | rest => (pyIntDigits base rest).map (fun n => (n : Int))

/-- Parse of one polynomial term of `poly2int`: `x^k` via
`int(bit[2:], 10)` (a negative exponent raises at `1 << k` and is caught
as a `ValueError`), `x` or `1`. -/
def parseTerm (t : List Char) : Option Nat :=
  match t with
  | 'x' :: '^' :: rest =>
    match pyInt 10 rest with
    | some e => if e < 0 then none else some (1 <<< e.toNat)
    | none => none
  | ['x'] => some 2
  | ['1'] => some 1
  | _ => none

/-- Accumulation loop `poly |= term` over the split terms. -/
def orTerms (acc : Nat) : List (List Char) → Option Nat
  | [] => some acc
  | t :: ts =>
    match parseTerm t with
    | some v => orTerms (acc ||| v) ts
    | none => none

/-- The pre-mask accumulated value of `poly2int` of `util.py`: lower-case
and strip, then the hexadecimal branch, the decimal branch, or the
coefficient-format branch (whitespace removed, split on `+`). -/
def parsePolyValue (cs : List Char) : Option Int :=
  let s := stripChars (lowerChars cs)
  match s with
  | '0' :: 'x' :: rest => pyInt 16 rest
  | _ =>
    match pyInt 10 s with
    | some v => some v
    | none =>
      (orTerms 0 ((s.filter (fun c => !pySpace c)).splitOn '+')).map
        (fun n => (n : Int))

/-- Conversion of a polynomial coefficient string to an integer
(`util.poly2int`); `none` models the raised `ValueError`. Python applies
`poly &= (1 << nrBits) - 1` to a possibly negative int, which by two's
complement is the Euclidean remainder mod `1 << nrBits`. -/
def poly2int (polyString : String) (nrBits : Nat) (shiftRight : Bool) :
    Option Nat :=
  (parsePolyValue polyString.data).map fun poly =>
    let poly2 := (poly % ((1 <<< nrBits : Nat) : Int)).toNat
    if shiftRight then bitreverse poly2 nrBits else poly2

/-- Rendering of one term of `int2poly`. -/
def termChars (shift : Nat) : List Char :=
  if shift = 0 then ['1']
  else if shift = 1 then ['x']
  else 'x' :: '^' :: natDigits shift

/-- Term collection loop of `int2poly`, least significant term first. -/
def polyTermsAux (poly shift : Nat) : List (List Char) :=
  if poly = 0 then []
  else (if poly % 2 = 1 then [termChars shift] else [])
    ++ polyTermsAux (poly / 2) (shift + 1)
termination_by poly
decreasing_by exact Nat.div_lt_self (by omega) (by omega)

/-- Joining of terms with `" + "`. -/
def joinPlusSep : List (List Char) → List Char
  | [] => []
  | [t] => t
  | t :: ts => t ++ ' ' :: '+' :: ' ' :: joinPlusSep ts

/-- Conversion of an integer polynomial coefficient to its string form
(`util.int2poly`). -/
def int2poly (poly nrBits : Nat) (shiftRight : Bool) : String :=
  let p1 := poly &&& ((1 <<< nrBits) - 1)
  let p2 := if shiftRight then bitreverse p1 nrBits else p1
  String.mk (joinPlusSep ((polyTermsAux p2 0 ++ ['x' :: '^' :: natDigits nrBits]).reverse))

/-- Sortedness check of an operand list: ascending `sortKey` order. -/
def chainKeyLe : List BitExpr → Bool
  | [] => true
  | [_] => true
  | a :: b :: rest =>
    charListLe (sortKeyChars a) (sortKeyChars b) && chainKeyLe (b :: rest)

mutual

/-- Check that every `XOR` node of an expression has its operand list
in ascending `sortKey` order. -/
def exprSorted : BitExpr → Bool
  | .bit _ _ => true
  | .const _ => true
  | .xor items => chainKeyLe items && exprSortedList items

def exprSortedList : List BitExpr → Bool
  | [] => true
  | x :: xs => exprSorted x && exprSortedList xs

end

mutual

/-- Well-formedness of an expression tree: every `XOR` node has at least
one operand. -/
def wellFormed : BitExpr → Bool
  | .bit _ _ => true
  | .const _ => true
  | .xor items => !items.isEmpty && wellFormedList items

def wellFormedList : List BitExpr → Bool
  | [] => true
  | x :: xs => wellFormed x && wellFormedList xs

end

/-- One right-shift update of the reference crc value, taking the consumed
data bit as a boolean. -/
def refStepRightVal (polynomial nrCrcBits c : Nat) (b : Bool) : Nat :=
  let c1 := c ^^^ (if b then 1 else 0)
  if c1 &&& 1 ≠ 0 then ((c1 >>> 1) ^^^ polynomial) &&& ((1 <<< nrCrcBits) - 1)
  else (c1 >>> 1) &&& ((1 <<< nrCrcBits) - 1)

/-- One left-shift update of the reference crc value, taking the consumed
data bit as a boolean. -/
def refStepLeftVal (polynomial nrCrcBits c : Nat) (b : Bool) : Nat :=
  let c1 := c ^^^ ((if b then 1 else 0) <<< (nrCrcBits - 1))
  if c1 &&& (1 <<< (nrCrcBits - 1)) ≠ 0 then
    ((c1 <<< 1) ^^^ polynomial) &&& ((1 <<< nrCrcBits) - 1)
  else (c1 <<< 1) &&& ((1 <<< nrCrcBits) - 1)

/-- Invariant tying a symbolic Word to a concrete crc value: right length,
value in range, and every bit expression evaluating to the value bit. -/
def Represents (env : String → Nat → Bool) (w : List BitExpr) (c n : Nat) : Prop :=
  w.length = n ∧ c < 2 ^ n ∧
    ∀ j, j < n → (w.getD j (.const false)).eval env = c.testBit j

/-- The specified left (MSB-first) shift step: predecessor `word[j-1]`
(constant zero at `j = 0`), feedback query `XOR(word[crcWidth-1],
currentDataBit)`, XORed in exactly when polynomial bit `j` is set. -/
def specStepLeft (P nrCrcBits : Nat) (word : List BitExpr) (currentDataBit : BitExpr) :
    List BitExpr :=
  (List.range nrCrcBits).map fun j =>
    let predecessor := if j = 0 then BitExpr.const false
      else word.getD (j - 1) (.const false)
    let feedbackQuery :=
      BitExpr.xor [word.getD (nrCrcBits - 1) (.const false), currentDataBit]
    if P.testBit j then BitExpr.xor [predecessor, feedbackQuery] else predecessor

/-- The specified right (LSB-first) shift step: predecessor `word[j+1]`
(constant zero at `j = crcWidth-1`), feedback query `XOR(word[0],
currentDataBit)`, XORed in exactly when polynomial bit `j` is set. -/
def specStepRight (P nrCrcBits : Nat) (word : List BitExpr) (currentDataBit : BitExpr) :
    List BitExpr :=
  (List.range nrCrcBits).map fun j =>
    let predecessor := if j = nrCrcBits - 1 then BitExpr.const false
      else word.getD (j + 1) (.const false)
    let feedbackQuery := BitExpr.xor [word.getD 0 (.const false), currentDataBit]
    if P.testBit j then BitExpr.xor [predecessor, feedbackQuery] else predecessor

/-- Indices `nrDataBits-1` down to `0`: the specified most-significant-first
data bit consumption order of the left-shift loop. -/
def descIndices (m : Nat) : List Nat :=
  (List.range m).map (fun j => m - 1 - j)

/-! ### Basic semantic lemmas -/

theorem evalXList_append (env : String → Nat → Bool) (a b : List BitExpr) :
    evalXList env (a ++ b) = (evalXList env a).xor (evalXList env b) := by
  induction a with
  | nil => simp [evalXList]
  | cons x xs ih => simp [evalXList, ih, Bool.xor_assoc]

mutual

theorem eval_flattenOne (env : String → Nat → Bool) (e : BitExpr) :
    evalXList env (flattenOne e) = e.eval env := by
  match e with
  | .bit n i => simp [flattenOne, evalXList, BitExpr.eval]
  | .const v => simp [flattenOne, evalXList, BitExpr.eval]
  | .xor items => rw [flattenOne, eval_flattenList, BitExpr.eval]

theorem eval_flattenList (env : String → Nat → Bool) (l : List BitExpr) :
    evalXList env (flattenList l) = evalXList env l := by
  match l with
  | [] => rfl
  | x :: xs =>
    rw [flattenList, evalXList, evalXList_append, eval_flattenOne env x,
      eval_flattenList env xs]

end

theorem eval_flatten (env : String → Nat → Bool) (e : BitExpr) :
    (BitExpr.flatten e).eval env = e.eval env := by
  cases e with
  | bit n i => rfl
  | const v => rfl
  | xor items => rw [BitExpr.flatten, BitExpr.eval, eval_flattenList, BitExpr.eval]

theorem evalXList_eq_parity (env : String → Nat → Bool) (l : List BitExpr) :
    evalXList env l = decide (l.countP (fun e => BitExpr.eval env e) % 2 = 1) := by
  induction l with
  | nil => simp [evalXList]
  | cons x xs ih =>
    rw [evalXList, ih, List.countP_cons]
    rcases Nat.mod_two_eq_zero_or_one (List.countP (fun e => BitExpr.eval env e) xs)
      with h2 | h2 <;>
      cases h : BitExpr.eval env x <;>
      simp [h, h2, Nat.add_mod]

/-! ### Lemmas about the lexicographic key order -/

theorem charListLe_total : ∀ a b, charListLe a b = true ∨ charListLe b a = true
  | [], _ => Or.inl rfl
  | _ :: _, [] => Or.inr rfl
  | a :: as, b :: bs => by
    by_cases h1 : a.toNat < b.toNat
    · left; simp [charListLe, h1]
    · by_cases h2 : b.toNat < a.toNat
      · right; simp [charListLe, h1, h2]
      · have ih := charListLe_total as bs
        simpa [charListLe, h1, h2] using ih

theorem charListLe_trans : ∀ a b c, charListLe a b = true → charListLe b c = true →
    charListLe a c = true
  | [], _, _, _, _ => rfl
  | _ :: _, [], _, h, _ => by simp [charListLe] at h
  | _ :: _, _ :: _, [], _, h => by simp [charListLe] at h
  | a :: as, b :: bs, c :: cs, h1, h2 => by
    simp only [charListLe] at h1 h2 ⊢
    by_cases hab : a.toNat < b.toNat <;> by_cases hba : b.toNat < a.toNat <;>
      simp only [hab, hba, if_true, if_false] at h1 <;>
      by_cases hbc : b.toNat < c.toNat <;> by_cases hcb : c.toNat < b.toNat <;>
        simp only [hbc, hcb, if_true, if_false] at h2 <;>
        by_cases hac : a.toNat < c.toNat <;> by_cases hca : c.toNat < a.toNat <;>
          simp only [hac, hca, if_true, if_false] <;>
          first
            | rfl
            | (exfalso; omega)
            | exact absurd h1 Bool.false_ne_true
            | exact absurd h2 Bool.false_ne_true
            | exact charListLe_trans as bs cs h1 h2

theorem charListLe_antisymm : ∀ a b, charListLe a b = true → charListLe b a = true →
    a = b
  | [], [], _, _ => rfl
  | [], _ :: _, _, h => by simp [charListLe] at h
  | _ :: _, [], h, _ => by simp [charListLe] at h
  | a :: as, b :: bs, h1, h2 => by
    simp only [charListLe] at h1 h2
    by_cases hab : a.toNat < b.toNat <;> by_cases hba : b.toNat < a.toNat <;>
      simp only [hab, hba, if_true, if_false] at h1 h2 <;>
      first
        | (exfalso; omega)
        | exact absurd h1 Bool.false_ne_true
        | exact absurd h2 Bool.false_ne_true
        | (have heq : a = b := Char.ext (by
            have hv : a.val.toNat = b.val.toNat := by
              simp only [Char.toNat] at hab hba; omega
            exact UInt32.ext hv)
           rw [heq, charListLe_antisymm as bs h1 h2])

instance : IsTotal BitExpr keyLe := ⟨fun a b => charListLe_total _ _⟩

instance : IsTrans BitExpr keyLe := ⟨fun _ _ _ => charListLe_trans _ _ _⟩

/-! ### Counting lemmas for the elimination pass -/

theorem countP_filter_split {α : Type} (p q : α → Bool) (l : List α) :
    l.countP p = (l.filter q).countP p + (l.filter (fun e => !q e)).countP p := by
  induction l with
  | nil => simp
  | cons x xs ih =>
    by_cases hq : q x <;> by_cases hp : p x <;>
      simp [List.filter_cons, List.countP_cons, hq, hp, ih] <;> omega

theorem countP_kind_split (p : BitExpr → Bool) (l : List BitExpr) :
    l.countP p = (l.filter (fun e => !isBitB e && !isConstB e)).countP p
      + (l.filter isBitB).countP p + (l.filter isConstB).countP p := by
  have h1 := countP_filter_split p isBitB l
  have h2 := countP_filter_split p isConstB (l.filter (fun e => !isBitB e))
  rw [List.filter_filter, List.filter_filter] at h2
  have e1 : (fun e => isConstB e && !isBitB e) = isConstB := by
    funext e; cases e <;> rfl
  have e2 : (fun e => !isConstB e && !isBitB e) = (fun e => !isBitB e && !isConstB e) := by
    funext e; cases e <;> rfl
  rw [e1, e2] at h2
  omega

theorem countP_eval_filter_const (env : String → Nat → Bool) (l : List BitExpr) :
    (l.filter isConstB).countP (fun e => BitExpr.eval env e)
      = l.count (BitExpr.const true) := by
  induction l with
  | nil => simp
  | cons x xs ih =>
    rcases x with ⟨n, i⟩ | v | m
    · simpa [List.filter_cons, isConstB, List.count_cons] using ih
    · cases v <;>
        simp [List.filter_cons, isConstB, List.count_cons, List.countP_cons,
          BitExpr.eval, ih]
    · simpa [List.filter_cons, isConstB, List.count_cons] using ih

theorem firstOccs_sublist : ∀ l : List BitExpr, (firstOccs l).Sublist l
  | [] => by rw [firstOccs]
  | x :: xs => by
    rw [firstOccs]
    exact List.Sublist.cons₂ x ((firstOccs_sublist _).trans (List.filter_sublist xs))
termination_by l => l.length
decreasing_by
  simp only [List.length_cons]
  exact Nat.lt_succ_of_le (List.length_filter_le _ _)

theorem firstOccs_nodup : ∀ l : List BitExpr, (firstOccs l).Nodup
  | [] => by rw [firstOccs]; exact List.nodup_nil
  | x :: xs => by
    rw [firstOccs]
    refine List.nodup_cons.mpr ⟨?_, firstOccs_nodup _⟩
    intro hmem
    have hx := (firstOccs_sublist _).subset hmem
    have hpx := List.of_mem_filter hx
    simp at hpx
termination_by l => l.length
decreasing_by
  simp only [List.length_cons]
  exact Nat.lt_succ_of_le (List.length_filter_le _ _)

theorem firstOccs_eq_self : ∀ l : List BitExpr, l.Nodup → firstOccs l = l
  | [], _ => by rw [firstOccs]
  | x :: xs, h => by
    rw [firstOccs]
    have hx : x ∉ xs := (List.nodup_cons.mp h).1
    have hf : xs.filter (fun y => !(y == x)) = xs :=
      List.filter_eq_self.mpr (fun y hy => by
        simp only [Bool.not_eq_eq_eq_not, Bool.not_true, beq_eq_false_iff_ne, ne_eq]
        rintro rfl; exact hx hy)
    rw [hf, firstOccs_eq_self xs (List.nodup_cons.mp h).2]
termination_by l => l.length
decreasing_by
  simp only [List.length_cons]
  omega

theorem countP_parity_firstOccs (p : BitExpr → Bool) : ∀ l : List BitExpr,
    ((firstOccs l).filter (fun b => l.count b % 2 == 1)).countP p % 2
      = l.countP p % 2
  | [] => by rw [firstOccs]; rfl
  | x :: xs => by
    rw [firstOccs]
    have hcx : (x :: xs).count x = xs.count x + 1 := by
      simp [List.count_cons]
    have hmem : ∀ b ∈ firstOccs (xs.filter (fun y => !(y == x))), ¬(b = x) := by
      intro b hb hbx
      have hbf := (firstOccs_sublist _).subset hb
      have := List.of_mem_filter hbf
      subst hbx
      simp at this
    have hcongr : (firstOccs (xs.filter (fun y => !(y == x)))).filter
          (fun b => (x :: xs).count b % 2 == 1)
        = (firstOccs (xs.filter (fun y => !(y == x)))).filter
          (fun b => (xs.filter (fun y => !(y == x))).count b % 2 == 1) := by
      refine List.filter_congr ?_
      intro b hb
      have hbx := hmem b hb
      have hxb : ¬x = b := fun hh => hbx hh.symm
      have h1 : (x :: xs).count b = xs.count b := by
        simp [List.count_cons, hxb]
      have h2 : (xs.filter (fun y => !(y == x))).count b = xs.count b := by
        refine List.count_filter ?_
        simp [hbx]
      rw [h1, h2]
    have ih := countP_parity_firstOccs p (xs.filter (fun y => !(y == x)))
    have hsplit := countP_filter_split p (fun y => y == x) xs
    rw [List.filter_beq, List.countP_replicate] at hsplit
    by_cases hpar : (xs.count x + 1) % 2 = 1
    · rw [List.filter_cons_of_pos (by simpa [hcx] using hpar), hcongr]
      rw [List.countP_cons, List.countP_cons]
      cases hpx : p x <;> simp only [hpx] at hsplit ⊢ <;> simp at hsplit ⊢ <;> omega
    · rw [List.filter_cons_of_neg (by simpa [hcx] using hpar), hcongr]
      rw [List.countP_cons]
      cases hpx : p x <;> simp only [hpx] at hsplit ⊢ <;> simp at hsplit ⊢ <;> omega
termination_by l => l.length
decreasing_by
  simp only [List.length_cons]
  exact Nat.lt_succ_of_le (List.length_filter_le _ _)

/-! ### Semantic preservation of the simplifier -/

theorem countP_eval_optimizeItems (env : String → Nat → Bool) (items : List BitExpr)
    (s : Bool) :
    List.countP (fun e => BitExpr.eval env e) (XOR.optimizeItems items s) % 2
      = List.countP (fun e => BitExpr.eval env e) items % 2 := by
  set p : BitExpr → Bool := fun e => BitExpr.eval env e with hpdef
  have hone : List.countP p (if items.count (BitExpr.const true) % 2 == 1
        then [BitExpr.const true] else []) % 2
      = items.count (BitExpr.const true) % 2 := by
    by_cases h : items.count (BitExpr.const true) % 2 = 1
    · simp [h, List.countP_cons, hpdef, BitExpr.eval]
    · have h0 : items.count (BitExpr.const true) % 2 = 0 := by omega
      simp [h0]
  have hodd : List.countP p ((firstOccs (items.filter isBitB)).filter
        (fun b => items.count b % 2 == 1)) % 2
      = List.countP p (items.filter isBitB) % 2 := by
    have hcongr : (firstOccs (items.filter isBitB)).filter
          (fun b => items.count b % 2 == 1)
        = (firstOccs (items.filter isBitB)).filter
          (fun b => (items.filter isBitB).count b % 2 == 1) := by
      refine List.filter_congr ?_
      intro b hb
      have hbl := List.of_mem_filter ((firstOccs_sublist _).subset hb)
      rw [List.count_filter hbl]
    rw [hcongr]
    exact countP_parity_firstOccs p (items.filter isBitB)
  have hk := countP_kind_split p items
  have hc : List.countP p (items.filter isConstB) = items.count (BitExpr.const true) :=
    countP_eval_filter_const env items
  have hnew : List.countP p ((items.filter (fun e => !isBitB e && !isConstB e))
        ++ ((firstOccs (items.filter isBitB)).filter (fun b => items.count b % 2 == 1))
        ++ (if items.count (BitExpr.const true) % 2 == 1
            then [BitExpr.const true] else [])) % 2
      = List.countP p items % 2 := by
    rw [List.countP_append, List.countP_append]
    omega
  simp only [XOR.optimizeItems]
  set NEW := (items.filter (fun e => !isBitB e && !isConstB e))
      ++ ((firstOccs (items.filter isBitB)).filter (fun b => items.count b % 2 == 1))
      ++ (if items.count (BitExpr.const true) % 2 == 1
          then [BitExpr.const true] else []) with hNEW
  set M := if s then NEW.insertionSort keyLe else NEW with hM
  have hMP : List.countP p M = List.countP p NEW := by
    cases s
    · rw [hM]; rfl
    · rw [hM]
      exact List.Perm.countP_eq p (List.perm_insertionSort keyLe NEW)
  by_cases hemp : M.isEmpty
  · rw [if_pos hemp]
    have hM0 : List.countP p M = 0 := by
      rw [List.isEmpty_iff] at hemp; rw [hemp]; rfl
    have h1 : List.countP p [BitExpr.const false] = 0 := by
      simp [List.countP_cons, hpdef, BitExpr.eval]
    omega
  · rw [if_neg hemp]
    omega

theorem evalXList_optimizeItems (env : String → Nat → Bool) (items : List BitExpr)
    (s : Bool) :
    evalXList env (XOR.optimizeItems items s) = evalXList env items := by
  rw [evalXList_eq_parity, evalXList_eq_parity, countP_eval_optimizeItems]

theorem eval_optimizeNode (env : String → Nat → Bool) (s : Bool) (e : BitExpr) :
    (BitExpr.optimizeNode s e).eval env = e.eval env := by
  cases e with
  | bit n i => rfl
  | const v => rfl
  | xor items =>
    rw [BitExpr.optimizeNode, BitExpr.eval, BitExpr.eval, evalXList_optimizeItems]

theorem eval_getD_map (env : String → Nat → Bool) (f : BitExpr → BitExpr)
    (hf : ∀ e, (f e).eval env = e.eval env) (w : List BitExpr) (j : Nat) :
    ((w.map f).getD j (.const false)).eval env
      = (w.getD j (.const false)).eval env := by
  by_cases hj : j < w.length
  · rw [List.getD_eq_getElem _ _ (by simpa using hj), List.getD_eq_getElem _ _ hj,
      List.getElem_map]
    exact hf _
  · rw [List.getD_eq_default _ _ (by simpa using hj),
      List.getD_eq_default _ _ (by omega)]

theorem optWord_length (g : CrcGen) (w : List BitExpr) (sort : Bool) :
    (g.optWord w sort).length = w.length := by
  simp only [CrcGen.optWord]
  by_cases h1 : g.optimize &&& CrcGen.OPT_FLATTEN ≠ 0 <;>
    by_cases h2 : g.optimize &&& CrcGen.OPT_ELIMINATE ≠ 0 <;>
    simp [h1, h2, Word.flatten, Word.optimize]

theorem optWord_eval_getD (g : CrcGen) (w : List BitExpr) (sort : Bool)
    (env : String → Nat → Bool) (j : Nat) :
    ((g.optWord w sort).getD j (.const false)).eval env
      = (w.getD j (.const false)).eval env := by
  simp only [CrcGen.optWord, Word.flatten, Word.optimize]
  by_cases h1 : g.optimize &&& CrcGen.OPT_FLATTEN ≠ 0 <;>
    by_cases h2 : g.optimize &&& CrcGen.OPT_ELIMINATE ≠ 0
  · rw [if_pos h2, if_pos h1,
      eval_getD_map env _ (eval_optimizeNode env _),
      eval_getD_map env _ (eval_flatten env)]
  · rw [if_neg h2, if_pos h1, eval_getD_map env _ (eval_flatten env)]
  · rw [if_pos h2, if_neg h1, eval_getD_map env _ (eval_optimizeNode env _)]
  · rw [if_neg h2, if_neg h1]

/-! ### One shift-register step, symbolically and on values -/

theorem evalXList_pair (env : String → Nat → Bool) (a b : BitExpr) :
    evalXList env [a, b] = (a.eval env).xor (b.eval env) := by
  simp [evalXList]

theorem eval_xorP (env : String → Nat → Bool) (P : Nat) (d q : BitExpr) (j : Nat) :
    (CrcGen.xorP P d q j).eval env = (d.eval env).xor (P.testBit j && q.eval env) := by
  have ht : P.testBit j = decide ((P >>> j) &&& 1 = 1) := by
    rw [Nat.testBit_to_div_mod, Nat.shiftRight_eq_div_pow, Nat.and_one_is_mod]
  rw [CrcGen.xorP]
  by_cases h : (P >>> j) &&& 1 = 1
  · rw [if_pos h]
    have hb : P.testBit j = true := by rw [ht]; simp [h]
    rw [hb, BitExpr.eval, evalXList_pair]
    simp
  · rw [if_neg h]
    have hb : P.testBit j = false := by rw [ht]; exact decide_eq_false h
    rw [hb]
    simp

theorem one_shiftLeft_sub_one_lt (n : Nat) : (1 <<< n) - 1 < 2 ^ n := by
  rw [Nat.shiftLeft_eq, one_mul]
  have h1 : 0 < 2 ^ n := Nat.pos_pow_of_pos n (by omega)
  omega

theorem mask_testBit (n x j : Nat) :
    (x &&& ((1 <<< n) - 1)).testBit j = (x.testBit j && decide (j < n)) := by
  rw [Nat.shiftLeft_eq, one_mul, Nat.testBit_and, Nat.testBit_two_pow_sub_one]

theorem small_testBit_succ (b : Bool) (j : Nat) :
    (if b then 1 else 0 : Nat).testBit (j + 1) = false := by
  cases b
  · simp [Nat.zero_testBit]
  · simp only [if_true]
    exact Nat.testBit_lt_two_pow (by
      have h1 : (2:Nat) ^ 1 ≤ 2 ^ (j + 1) := Nat.pow_le_pow_right (by omega) (by omega)
      omega)

theorem small_testBit_zero (b : Bool) : (if b then 1 else 0 : Nat).testBit 0 = b := by
  cases b <;> simp [Nat.zero_testBit]

theorem refStepRightVal_lt (P n c : Nat) (b : Bool) : refStepRightVal P n c b < 2 ^ n := by
  simp only [refStepRightVal]
  split <;> split <;> exact Nat.and_lt_two_pow _ (one_shiftLeft_sub_one_lt n)

theorem refStepLeftVal_lt (P n c : Nat) (b : Bool) : refStepLeftVal P n c b < 2 ^ n := by
  simp only [refStepLeftVal]
  split <;> split <;> exact Nat.and_lt_two_pow _ (one_shiftLeft_sub_one_lt n)

theorem refStepRightVal_testBit (P n c : Nat) (b : Bool) (j : Nat) (hj : j < n) :
    (refStepRightVal P n c b).testBit j
      = (c.testBit (j + 1)).xor (((c.testBit 0).xor b) && P.testBit j) := by
  have hc1top : (c ^^^ (if b then 1 else 0)).testBit (j + 1) = c.testBit (j + 1) := by
    rw [Nat.testBit_xor, small_testBit_succ, Bool.xor_false]
  have hc10 : (c ^^^ (if b then 1 else 0)).testBit 0 = (c.testBit 0).xor b := by
    rw [Nat.testBit_xor, small_testBit_zero]
  have hq : ((c ^^^ (if b then 1 else 0)) &&& 1 ≠ 0)
      ↔ ((c ^^^ (if b then 1 else 0)).testBit 0 = true) := by
    rw [Nat.and_one_is_mod, Nat.testBit_zero]
    rcases Nat.mod_two_eq_zero_or_one (c ^^^ (if b then 1 else 0)) with h | h <;>
      simp [h]
  simp only [refStepRightVal]
  by_cases hqc : (c ^^^ (if b then 1 else 0)) &&& 1 ≠ 0
  · have hb : (c.testBit 0).xor b = true := by rw [← hc10]; exact hq.mp hqc
    rw [if_pos hqc, mask_testBit, Nat.testBit_xor, Nat.testBit_shiftRight,
      Nat.add_comm 1 j, hc1top, hb]
    simp [hj]
  · have hb : (c.testBit 0).xor b = false := by
      rw [← hc10]
      by_cases h : (c ^^^ (if b then 1 else 0)).testBit 0 = true
      · exact absurd (hq.mpr h) hqc
      · simpa using h
    rw [if_neg hqc, mask_testBit, Nat.testBit_shiftRight, Nat.add_comm 1 j, hc1top, hb]
    simp [hj]

theorem refStepLeftVal_testBit (P n c : Nat) (b : Bool) (j : Nat) (hj : j < n) :
    (refStepLeftVal P n c b).testBit j
      = (if 0 < j then c.testBit (j - 1) else false).xor
          (((c.testBit (n - 1)).xor b) && P.testBit j) := by
  set bv : Nat := (if b then 1 else 0) <<< (n - 1) with hbv
  have hbvtop : bv.testBit (n - 1) = b := by
    cases b <;> simp [hbv, Nat.testBit_shiftLeft]
  have hc1top : (c ^^^ bv).testBit (n - 1) = (c.testBit (n - 1)).xor b := by
    rw [Nat.testBit_xor, hbvtop]
  have hq : ((c ^^^ bv) &&& (1 <<< (n - 1)) ≠ 0)
      ↔ ((c ^^^ bv).testBit (n - 1) = true) := by
    rw [Nat.shiftLeft_eq, one_mul, Nat.and_two_pow]
    have h2 : 0 < 2 ^ (n - 1) := Nat.pos_pow_of_pos _ (by omega)
    cases h : (c ^^^ bv).testBit (n - 1) <;> simp [h, h2.ne']
  have hshift : ∀ x : Nat, (x <<< 1).testBit j = (decide (1 ≤ j) && x.testBit (j - 1)) := by
    intro x
    rw [Nat.testBit_shiftLeft]
  have hc1low : 0 < j → (c ^^^ bv).testBit (j - 1) = c.testBit (j - 1) := by
    intro hj0
    rw [Nat.testBit_xor, hbv, Nat.testBit_shiftLeft]
    have hlt : ¬(n - 1 ≤ j - 1) := by omega
    simp [hlt]
  simp only [refStepLeftVal, ← hbv]
  by_cases hqc : (c ^^^ bv) &&& (1 <<< (n - 1)) ≠ 0
  · have hb : (c.testBit (n - 1)).xor b = true := by rw [← hc1top]; exact hq.mp hqc
    rw [if_pos hqc, mask_testBit, Nat.testBit_xor, hshift, hb]
    by_cases hj0 : 0 < j
    · rw [hc1low hj0]
      have hj1 : 1 ≤ j := hj0
      simp [hj, hj0, hj1]
    · have hj00 : j = 0 := by omega
      subst hj00
      simp [hj]
  · have hb : (c.testBit (n - 1)).xor b = false := by
      rw [← hc1top]
      by_cases h : (c ^^^ bv).testBit (n - 1) = true
      · exact absurd (hq.mpr h) hqc
      · simpa using h
    rw [if_neg hqc, mask_testBit, hshift, hb]
    by_cases hj0 : 0 < j
    · rw [hc1low hj0]
      have hj1 : 1 ≤ j := hj0
      simp [hj, hj0, hj1]
    · have hj00 : j = 0 := by omega
      subst hj00
      simp [hj]

/-! ### The shift loop preserves the value invariant -/

theorem testBit_ge (c n j : Nat) (hc : c < 2 ^ n) (hj : n ≤ j) : c.testBit j = false :=
  Nat.testBit_lt_two_pow (lt_of_lt_of_le hc (Nat.pow_le_pow_right (by omega) hj))

theorem stepRight_represents (env : String → Nat → Bool) (P n : Nat) (w : List BitExpr)
    (c : Nat) (e : BitExpr) (hn : 1 ≤ n) (h : Represents env w c n) :
    Represents env (CrcGen.stepRight P n w e) (refStepRightVal P n c (e.eval env)) n := by
  obtain ⟨hlen, hc, hbits⟩ := h
  refine ⟨by simp [CrcGen.stepRight], refStepRightVal_lt P n c _, ?_⟩
  intro j hj
  have hjlen : j < (CrcGen.stepRight P n w e).length := by
    simp [CrcGen.stepRight]; omega
  rw [List.getD_eq_getElem _ _ hjlen]
  simp only [CrcGen.stepRight, List.getElem_map, List.getElem_range]
  rw [eval_xorP, refStepRightVal_testBit P n c _ j hj]
  have hquery : BitExpr.eval env (BitExpr.xor [w.getD 0 (.const false), e])
      = (c.testBit 0).xor (e.eval env) := by
    rw [BitExpr.eval, evalXList_pair, hbits 0 (by omega)]
  have hstate : BitExpr.eval env (if j < n - 1 then w.getD (j + 1) (.const false)
      else .const false) = c.testBit (j + 1) := by
    by_cases hj1 : j < n - 1
    · rw [if_pos hj1]; exact hbits (j + 1) (by omega)
    · rw [if_neg hj1, testBit_ge c n (j + 1) hc (by omega)]; rfl
  rw [hquery, hstate, Bool.and_comm]

theorem stepLeft_represents (env : String → Nat → Bool) (P n : Nat) (w : List BitExpr)
    (c : Nat) (e : BitExpr) (hn : 1 ≤ n) (h : Represents env w c n) :
    Represents env (CrcGen.stepLeft P n w e) (refStepLeftVal P n c (e.eval env)) n := by
  obtain ⟨hlen, hc, hbits⟩ := h
  refine ⟨by simp [CrcGen.stepLeft], refStepLeftVal_lt P n c _, ?_⟩
  intro j hj
  have hjlen : j < (CrcGen.stepLeft P n w e).length := by
    simp [CrcGen.stepLeft]; omega
  rw [List.getD_eq_getElem _ _ hjlen]
  simp only [CrcGen.stepLeft, List.getElem_map, List.getElem_range]
  rw [eval_xorP, refStepLeftVal_testBit P n c _ j hj]
  have hquery : BitExpr.eval env (BitExpr.xor [w.getD (n - 1) (.const false), e])
      = (c.testBit (n - 1)).xor (e.eval env) := by
    rw [BitExpr.eval, evalXList_pair, hbits (n - 1) (by omega)]
  have hstate : BitExpr.eval env (if 0 < j then w.getD (j - 1) (.const false)
      else .const false) = (if 0 < j then c.testBit (j - 1) else false) := by
    by_cases hj1 : 0 < j
    · rw [if_pos hj1, if_pos hj1]; exact hbits (j - 1) (by omega)
    · rw [if_neg hj1, if_neg hj1]; rfl
  rw [hquery, hstate, Bool.and_comm]

theorem optWord_represents (g : CrcGen) (sort : Bool) (env : String → Nat → Bool)
    (w : List BitExpr) (c n : Nat) (h : Represents env w c n) :
    Represents env (g.optWord w sort) c n :=
  ⟨by rw [optWord_length]; exact h.1, h.2.1,
    fun j hj => by rw [optWord_eval_getD]; exact h.2.2 j hj⟩

theorem foldl_steps_represents (g : CrcGen) (env : String → Nat → Bool)
    (step : List BitExpr → BitExpr → List BitExpr) (stepVal : Nat → Bool → Nat)
    (hstep : ∀ w c e, Represents env w c g.nrCrcBits →
      Represents env (step w e) (stepVal c (e.eval env)) g.nrCrcBits)
    (ebits : Nat → BitExpr) :
    ∀ (idxs : List Nat) (w : List BitExpr) (c : Nat),
      Represents env w c g.nrCrcBits →
      Represents env
        (idxs.foldl (fun w2 i => g.optWord (step w2 (ebits i)) false) w)
        (idxs.foldl (fun c2 i => stepVal c2 ((ebits i).eval env)) c)
        g.nrCrcBits
  | [], _, _, h => h
  | i :: is, w, c, h => by
    rw [List.foldl_cons, List.foldl_cons]
    exact foldl_steps_represents g env step stepVal hstep ebits is _ _
      (optWord_represents g false env _ _ _ (hstep w c (ebits i) h))

/-! ### The reference pair loop as a value fold -/

theorem refStepRight_eq (P n c d : Nat) :
    refStepRight P n (c, d) = (refStepRightVal P n c (d.testBit 0), d >>> 1) := by
  have h : d &&& 1 = if d.testBit 0 then 1 else 0 := by
    rw [Nat.and_one_is_mod, Nat.testBit_zero]
    rcases Nat.mod_two_eq_zero_or_one d with h | h <;> simp [h]
  simp only [refStepRight, refStepRightVal, h]

theorem refStepLeft_eq (P n m c d : Nat) :
    refStepLeft P n m (c, d) = (refStepLeftVal P n c (d.testBit (m - 1)), d <<< 1) := by
  have h : (d >>> (m - 1)) &&& 1 = if d.testBit (m - 1) then 1 else 0 := by
    rw [Nat.and_one_is_mod, Nat.testBit_to_div_mod, Nat.shiftRight_eq_div_pow]
    rcases Nat.mod_two_eq_zero_or_one (d / 2 ^ (m - 1)) with h | h <;> simp [h]
  simp only [refStepLeft, refStepLeftVal, h]

theorem refRight_pairs (P n c d : Nat) : ∀ m : Nat,
    (List.range m).foldl (fun p _ => refStepRight P n p) (c, d)
      = ((List.range m).foldl (fun c2 i => refStepRightVal P n c2 (d.testBit i)) c,
          d >>> m)
  | 0 => by simp
  | m + 1 => by
    rw [List.range_succ, List.foldl_append, List.foldl_append, refRight_pairs P n c d m]
    simp only [List.foldl_cons, List.foldl_nil]
    rw [refStepRight_eq, Nat.testBit_shiftRight, Nat.add_zero,
      Nat.shiftRight_add d m 1]

theorem refLeft_pairs (P n m c d : Nat) : ∀ k : Nat, k ≤ m →
    (List.range k).foldl (fun p _ => refStepLeft P n m p) (c, d)
      = ((List.range k).foldl
            (fun c2 i => refStepLeftVal P n c2 (d.testBit (m - 1 - i))) c,
          d <<< k)
  | 0, _ => by simp
  | k + 1, hk => by
    rw [List.range_succ, List.foldl_append, List.foldl_append,
      refLeft_pairs P n m c d k (by omega)]
    simp only [List.foldl_cons, List.foldl_nil]
    rw [refStepLeft_eq]
    have h1 : (d <<< k).testBit (m - 1) = d.testBit (m - 1 - k) := by
      rw [Nat.testBit_shiftLeft]
      have hk1 : k ≤ m - 1 := by omega
      simp [hk1]
    rw [h1, ← Nat.shiftLeft_add, Nat.add_comm k 1]

theorem reverse_range_eq_map (m : Nat) :
    (List.range m).reverse = (List.range m).map (fun i => m - 1 - i) := by
  refine List.ext_getElem (by simp) ?_
  intro i h1 h2
  rw [List.getElem_reverse, List.getElem_map, List.getElem_range]
  rw [List.getElem_range]
  simp

/-! ### Reading a value back out of a represented Word -/

theorem evalWord_eq_of_represents (env : String → Nat → Bool) :
    ∀ (w : List BitExpr) (c : Nat), c < 2 ^ w.length →
      (∀ j, j < w.length → (w.getD j (.const false)).eval env = c.testBit j) →
      evalWord env w = c
  | [], c, hc, _ => by
    rw [evalWord]
    simp at hc
    omega
  | b :: rest, c, hc, hbits => by
    rw [evalWord]
    have h0 : b.eval env = c.testBit 0 := hbits 0 (by simp)
    have hrec : evalWord env rest = c >>> 1 := by
      refine evalWord_eq_of_represents env rest (c >>> 1) ?_ ?_
      · rw [Nat.shiftRight_one]
        have h2 : (2:Nat) ^ (rest.length + 1) = 2 ^ rest.length * 2 := Nat.pow_succ 2 _
        simp only [List.length_cons] at hc
        omega
      · intro j hj
        have hstep := hbits (j + 1) (by simp only [List.length_cons]; omega)
        rw [Nat.testBit_shiftRight, Nat.add_comm 1 j]
        simpa [List.getD_cons_succ] using hstep
    rw [h0, hrec, Nat.testBit_zero, Nat.shiftRight_one]
    rcases Nat.mod_two_eq_zero_or_one c with h | h <;> simp [h] <;> omega

theorem evalWord_of_represents (env : String → Nat → Bool) (w : List BitExpr)
    (c n : Nat) (h : Represents env w c n) : evalWord env w = c := by
  obtain ⟨hlen, hc, hbits⟩ := h
  exact evalWord_eq_of_represents env w c (by rw [hlen]; exact hc)
    (fun j hj => hbits j (by omega))

/-- C1: for every configuration with `nrCrcBits ≥ 1`, `nrDataBits ≥ 1`,
polynomial below `2^nrCrcBits`, either shift direction and any subset of
the optimization flags, and for every `(crc, data)` pair in range:
evaluating each bit expression of the Word produced by `CrcGen.__gen`,
with `Bit(crcVarName, i)` bound to bit `i` of `crc` and
`Bit(dataVarName, i)` bound to bit `i` of `data`, and assembling the
resulting bits least-significant-first, yields exactly
`CrcReference.crc crc data P nrCrcBits nrDataBits shiftRight`. -/
theorem crcgen_equivalence (P n m : Nat) (sr : Bool) (flags : Nat)
    (dataVarName crcVarName : String) (hn : 1 ≤ n) (hm : 1 ≤ m)
    (hP : P < 2 ^ n) (hnames : crcVarName ≠ dataVarName) (crc data : Nat)
    (hcrc : crc < 2 ^ n) (hdata : data < 2 ^ m) :
    (CrcGen.gen ⟨P, n, m, sr, flags⟩ dataVarName crcVarName).map
        (evalWord (mkEnv crcVarName dataVarName crc data))
      = Except.ok (CrcReference.crc crc data P n m sr) := by
  set env := mkEnv crcVarName dataVarName crc data with henv
  have hneq : ¬(dataVarName = crcVarName) := fun hh => hnames hh.symm
  have henvc : ∀ i, env crcVarName i = crc.testBit i := by
    intro i
    rw [henv]
    simp [mkEnv]
  have henvd : ∀ i, env dataVarName i = data.testBit i := by
    intro i
    rw [henv]
    simp [mkEnv, hneq]
  have hinit : Represents env ((List.range n).map (BitExpr.bit crcVarName)) crc n := by
    refine ⟨by simp, hcrc, ?_⟩
    intro j hj
    rw [List.getD_eq_getElem _ _ (by simp; omega), List.getElem_map, List.getElem_range]
    exact henvc j
  have hebits : ∀ i, BitExpr.eval env
      (((List.range m).map (BitExpr.bit dataVarName)).getD i (.const false))
      = data.testBit i := by
    intro i
    by_cases hi : i < m
    · rw [List.getD_eq_getElem _ _ (by simp; omega), List.getElem_map,
        List.getElem_range]
      exact henvd i
    · rw [List.getD_eq_default _ _ (by simp; omega),
        testBit_ge data m i hdata (by omega)]
      rfl
  simp only [CrcGen.gen]
  rw [if_neg (by omega : ¬(n < 1 ∨ m < 1))]
  simp only [Except.map, Except.ok.injEq]
  cases sr with
  | true =>
    rw [if_pos rfl]
    have hrep := foldl_steps_represents ⟨P, n, m, true, flags⟩ env
      (CrcGen.stepRight P n) (refStepRightVal P n)
      (fun w c e h => stepRight_represents env P n w c e hn h)
      (fun i => ((List.range m).map (BitExpr.bit dataVarName)).getD i (.const false))
      (List.range m) ((List.range n).map (BitExpr.bit crcVarName)) crc hinit
    have hfold : (List.range m).foldl (fun c2 i => refStepRightVal P n c2
          (BitExpr.eval env
            (((List.range m).map (BitExpr.bit dataVarName)).getD i (.const false)))) crc
        = (List.range m).foldl (fun c2 i => refStepRightVal P n c2 (data.testBit i)) crc := by
      congr 1
      funext c2 i
      rw [hebits i]
    rw [hfold] at hrep
    have href : CrcReference.crc crc data P n m true
        = (List.range m).foldl (fun c2 i => refStepRightVal P n c2 (data.testBit i)) crc := by
      simp only [CrcReference.crc, reduceIte]
      rw [refRight_pairs P n crc data m]
    rw [href]
    exact evalWord_of_represents env _ _ n
      (optWord_represents ⟨P, n, m, true, flags⟩ true env _ _ n hrep)
  | false =>
    rw [if_neg Bool.false_ne_true]
    have hrep := foldl_steps_represents ⟨P, n, m, false, flags⟩ env
      (CrcGen.stepLeft P n) (refStepLeftVal P n)
      (fun w c e h => stepLeft_represents env P n w c e hn h)
      (fun i => ((List.range m).map (BitExpr.bit dataVarName)).getD i (.const false))
      ((List.range m).reverse) ((List.range n).map (BitExpr.bit crcVarName)) crc hinit
    have hfold : (List.range m).reverse.foldl (fun c2 i => refStepLeftVal P n c2
          (BitExpr.eval env
            (((List.range m).map (BitExpr.bit dataVarName)).getD i (.const false)))) crc
        = (List.range m).foldl
            (fun c2 i => refStepLeftVal P n c2 (data.testBit (m - 1 - i))) crc := by
      have h1 : (List.range m).reverse.foldl (fun c2 i => refStepLeftVal P n c2
            (BitExpr.eval env
              (((List.range m).map (BitExpr.bit dataVarName)).getD i (.const false)))) crc
          = (List.range m).reverse.foldl
              (fun c2 i => refStepLeftVal P n c2 (data.testBit i)) crc := by
        congr 1
        funext c2 i
        rw [hebits i]
      rw [h1, reverse_range_eq_map, List.foldl_map]
    rw [hfold] at hrep
    have href : CrcReference.crc crc data P n m false
        = (List.range m).foldl
            (fun c2 i => refStepLeftVal P n c2 (data.testBit (m - 1 - i))) crc := by
      simp only [CrcReference.crc, reduceIte]
      rw [refLeft_pairs P n m crc data m (le_refl m), if_neg Bool.false_ne_true]
    rw [href]
    exact evalWord_of_represents env _ _ n
      (optWord_represents ⟨P, n, m, false, flags⟩ true env _ _ n hrep)

theorem crcgen_equivalence_witness :
    (1 ≤ 1 ∧ (1:Nat) < 2 ^ 1 ∧ ("crc" : String) ≠ "data") ∧
    (CrcGen.gen ⟨1, 1, 1, false, 7⟩ "data" "crc").map
        (evalWord (mkEnv "crc" "data" 1 1))
      = Except.ok (CrcReference.crc 1 1 1 1 1 false) :=
  ⟨⟨by decide, by decide, by decide⟩,
    crcgen_equivalence 1 1 1 false 7 "data" "crc" (by decide) (by decide) (by decide)
      (by decide) 1 1 (by decide) (by decide)⟩

/-- C4: for every well-formed expression tree and every combination of the
`OPT_FLATTEN`, `OPT_ELIMINATE` and `OPT_LEX` flags, the Word obtained by
applying flatten and/or optimize evaluates, under every assignment of the
named input bits, to the same value as the original. -/
theorem optimize_preserves_eval (g : CrcGen) (sort : Bool)
    (env : String → Nat → Bool) (w : List BitExpr)
    (hwf : wellFormedList w = true) (j : Nat) :
    ((g.optWord w sort).getD j (.const false)).eval env
      = (w.getD j (.const false)).eval env :=
  optWord_eval_getD g w sort env j

theorem optimize_preserves_eval_witness :
    wellFormedList [BitExpr.xor [BitExpr.bit "a" 0, BitExpr.bit "a" 0]] = true ∧
    (((CrcGen.mk 0 1 1 false 7).optWord
        [BitExpr.xor [BitExpr.bit "a" 0, BitExpr.bit "a" 0]] true).getD 0
          (.const false)).eval (fun _ _ => true)
      = (([BitExpr.xor [BitExpr.bit "a" 0, BitExpr.bit "a" 0]].getD 0
          (.const false)).eval (fun _ _ => true)) :=
  ⟨by decide, optimize_preserves_eval ⟨0, 1, 1, false, 7⟩ true (fun _ _ => true)
    [BitExpr.xor [BitExpr.bit "a" 0, BitExpr.bit "a" 0]] (by decide) 0⟩

/-! ### The step structure stated in specification form -/

theorem foldl_congr_mem {α β : Type} (l : List β) (f g2 : α → β → α)
    (h : ∀ a b, b ∈ l → f a b = g2 a b) (init : α) :
    l.foldl f init = l.foldl g2 init := by
  induction l generalizing init with
  | nil => rfl
  | cons x xs ih =>
    rw [List.foldl_cons, List.foldl_cons, h init x (by simp)]
    exact ih (fun a b hb => h a b (by simp [hb])) _

theorem stepRight_eq_spec (P n : Nat) (w : List BitExpr) (e : BitExpr) :
    CrcGen.stepRight P n w e = specStepRight P n w e := by
  simp only [CrcGen.stepRight, specStepRight]
  refine List.map_congr_left ?_
  intro j hj
  have hjn : j < n := List.mem_range.mp hj
  have ht : P.testBit j = decide ((P >>> j) &&& 1 = 1) := by
    rw [Nat.testBit_to_div_mod, Nat.shiftRight_eq_div_pow, Nat.and_one_is_mod]
  have hstate : (if j < n - 1 then w.getD (j + 1) (.const false)
      else (.const false : BitExpr))
      = (if j = n - 1 then (.const false : BitExpr)
        else w.getD (j + 1) (.const false)) := by
    by_cases hj1 : j < n - 1
    · rw [if_pos hj1, if_neg (by omega)]
    · rw [if_neg hj1, if_pos (by omega)]
  rw [CrcGen.xorP, hstate]
  by_cases h : (P >>> j) &&& 1 = 1
  · have hb : P.testBit j = true := by rw [ht]; exact decide_eq_true h
    rw [if_pos h, hb, if_pos rfl]
  · have hb : P.testBit j = false := by rw [ht]; exact decide_eq_false h
    rw [if_neg h, hb, if_neg Bool.false_ne_true]

theorem stepLeft_eq_spec (P n : Nat) (w : List BitExpr) (e : BitExpr) :
    CrcGen.stepLeft P n w e = specStepLeft P n w e := by
  simp only [CrcGen.stepLeft, specStepLeft]
  refine List.map_congr_left ?_
  intro j hj
  have ht : P.testBit j = decide ((P >>> j) &&& 1 = 1) := by
    rw [Nat.testBit_to_div_mod, Nat.shiftRight_eq_div_pow, Nat.and_one_is_mod]
  have hstate : (if 0 < j then w.getD (j - 1) (.const false)
      else (.const false : BitExpr))
      = (if j = 0 then (.const false : BitExpr)
        else w.getD (j - 1) (.const false)) := by
    by_cases hj1 : 0 < j
    · rw [if_pos hj1, if_neg (by omega)]
    · rw [if_neg hj1, if_pos (by omega)]
  rw [CrcGen.xorP, hstate]
  by_cases h : (P >>> j) &&& 1 = 1
  · have hb : P.testBit j = true := by rw [ht]; exact decide_eq_true h
    rw [if_pos h, hb, if_pos rfl]
  · have hb : P.testBit j = false := by rw [ht]; exact decide_eq_false h
    rw [if_neg h, hb, if_neg Bool.false_ne_true]

/-- C2: in `CrcGen.__gen`, data bits are consumed most-significant-first
(index `nrDataBits-1` down to `0`) for left shift and
least-significant-first (`0` up to `nrDataBits-1`) for right shift, and
every step builds exactly the specified predecessor and feedback-query
expressions. -/
theorem crcgen_step_structure (g : CrcGen) (dataVarName crcVarName : String)
    (hn : 1 ≤ g.nrCrcBits) (hm : 1 ≤ g.nrDataBits) :
    CrcGen.gen g dataVarName crcVarName = Except.ok (g.optWord
      ((if g.shiftRight then List.range g.nrDataBits
          else descIndices g.nrDataBits).foldl
        (fun w i => g.optWord
          ((if g.shiftRight then specStepRight else specStepLeft)
            g.P g.nrCrcBits w (BitExpr.bit dataVarName i)) false)
        ((List.range g.nrCrcBits).map (BitExpr.bit crcVarName)))
      true) := by
  simp only [CrcGen.gen]
  rw [if_neg (by omega)]
  cases hsr : g.shiftRight
  · simp only [Bool.false_eq_true, if_false]
    rw [reverse_range_eq_map]
    simp only [descIndices]
    congr 1
    congr 1
    rw [List.foldl_map, List.foldl_map]
    refine foldl_congr_mem _ _ _ ?_ _
    intro w i hi
    have hi2 : g.nrDataBits - 1 - i < g.nrDataBits := by omega
    rw [stepLeft_eq_spec,
      List.getD_eq_getElem _ _ (by simp; omega), List.getElem_map, List.getElem_range]
  · simp only [if_true]
    congr 1
    congr 1
    refine foldl_congr_mem _ _ _ ?_ _
    intro w i hi
    have hi2 : i < g.nrDataBits := List.mem_range.mp hi
    rw [stepRight_eq_spec,
      List.getD_eq_getElem _ _ (by simp; omega), List.getElem_map, List.getElem_range]

theorem crcgen_step_structure_witness :
    1 ≤ (CrcGen.mk 1 1 1 false 0).nrCrcBits ∧
    CrcGen.gen ⟨1, 1, 1, false, 0⟩ "data" "crc"
      = Except.ok ((CrcGen.mk 1 1 1 false 0).optWord
        ((descIndices 1).foldl
          (fun w i => (CrcGen.mk 1 1 1 false 0).optWord
            (specStepLeft 1 1 w (BitExpr.bit "data" i)) false)
          ((List.range 1).map (BitExpr.bit "crc")))
        true) :=
  ⟨by decide,
    crcgen_step_structure ⟨1, 1, 1, false, 0⟩ "data" "crc" (by decide) (by decide)⟩

/-! ### Counting the operands of an optimized XOR node -/

theorem mem_firstOccs_of_mem : ∀ (l : List BitExpr) (a : BitExpr), a ∈ l → a ∈ firstOccs l
  | x :: xs, a, h => by
    rw [firstOccs]
    by_cases hax : a = x
    · simp [hax]
    · have h2 : a ∈ xs := by
        rcases List.mem_cons.mp h with h3 | h3
        · exact absurd h3 hax
        · exact h3
      have h3 : a ∈ xs.filter (fun y => !(y == x)) :=
        List.mem_filter.mpr ⟨h2, by simp [hax]⟩
      simp [mem_firstOccs_of_mem _ a h3]
termination_by l => l.length
decreasing_by
  simp only [List.length_cons]
  exact Nat.lt_succ_of_le (List.length_filter_le _ _)

theorem count_optimizeItems (items : List BitExpr) (s : Bool) (x : BitExpr) :
    (XOR.optimizeItems items s).count x
      = (if (items.filter (fun e => !isBitB e && !isConstB e))
            ++ (firstOccs (items.filter isBitB)).filter (fun b => items.count b % 2 == 1)
            ++ (if items.count (BitExpr.const true) % 2 == 1
                then [BitExpr.const true] else []) = []
         then (if x = BitExpr.const false then 1 else 0)
         else ((items.filter (fun e => !isBitB e && !isConstB e))
            ++ (firstOccs (items.filter isBitB)).filter (fun b => items.count b % 2 == 1)
            ++ (if items.count (BitExpr.const true) % 2 == 1
                then [BitExpr.const true] else [])).count x) := by
  simp only [XOR.optimizeItems]
  set NEW := (items.filter (fun e => !isBitB e && !isConstB e))
      ++ (firstOccs (items.filter isBitB)).filter (fun b => items.count b % 2 == 1)
      ++ (if items.count (BitExpr.const true) % 2 == 1
          then [BitExpr.const true] else []) with hNEW
  have hperm : (if s then NEW.insertionSort keyLe else NEW).Perm NEW := by
    cases s
    · exact List.Perm.refl _
    · exact List.perm_insertionSort keyLe NEW
  by_cases hemp : (if s then NEW.insertionSort keyLe else NEW).isEmpty
  · rw [if_pos hemp]
    have hnil : NEW = [] := by
      have h0 := hperm.length_eq
      rw [List.isEmpty_iff] at hemp
      rw [hemp] at h0
      exact List.eq_nil_of_length_eq_zero h0.symm
    rw [if_pos hnil, List.count_singleton]
    by_cases hx : x = BitExpr.const false
    · simp [hx]
    · simp [hx, Ne.symm hx]
  · rw [if_neg hemp]
    have hne : ¬(NEW = []) := by
      intro h0
      rw [List.isEmpty_iff] at hemp
      apply hemp
      refine List.eq_nil_of_length_eq_zero ?_
      rw [hperm.length_eq, h0]
      rfl
    rw [if_neg hne]
    exact hperm.count_eq x

theorem count_others_bit (items : List BitExpr) (name : String) (i : Nat) :
    (items.filter (fun e => !isBitB e && !isConstB e)).count (BitExpr.bit name i) = 0 := by
  rw [List.count_eq_zero]
  intro hmem
  have h1 := List.of_mem_filter hmem
  simp [isBitB] at h1

theorem count_oddBits_nonbit (items : List BitExpr) (x : BitExpr)
    (hx : isBitB x = false) :
    ((firstOccs (items.filter isBitB)).filter
      (fun b => items.count b % 2 == 1)).count x = 0 := by
  rw [List.count_eq_zero]
  intro hmem
  have h1 : x ∈ items.filter isBitB :=
    (firstOccs_sublist _).subset (List.mem_filter.mp hmem).1
  have h2 := List.of_mem_filter h1
  rw [hx] at h2
  exact Bool.false_ne_true h2

theorem count_ones_ne (items : List BitExpr) (x : BitExpr)
    (hx : x ≠ BitExpr.const true) :
    (if items.count (BitExpr.const true) % 2 == 1
        then [BitExpr.const true] else []).count x = 0 := by
  split
  · rw [List.count_singleton]
    simp [Ne.symm hx]
  · rfl

theorem count_newItems_bit (items : List BitExpr) (name : String) (i : Nat) :
    ((items.filter (fun e => !isBitB e && !isConstB e))
      ++ (firstOccs (items.filter isBitB)).filter (fun b => items.count b % 2 == 1)
      ++ (if items.count (BitExpr.const true) % 2 == 1
          then [BitExpr.const true] else [])).count (BitExpr.bit name i)
      = if items.count (BitExpr.bit name i) % 2 = 1 then 1 else 0 := by
  rw [List.count_append, List.count_append, count_others_bit,
    count_ones_ne items _ (by intro hh; exact BitExpr.noConfusion hh)]
  by_cases hodd : items.count (BitExpr.bit name i) % 2 = 1
  · have hmem0 : (BitExpr.bit name i) ∈ items := by
      refine List.count_pos_iff.mp ?_
      omega
    have hmem1 : (BitExpr.bit name i) ∈ items.filter isBitB :=
      List.mem_filter.mpr ⟨hmem0, rfl⟩
    have hmem2 : (BitExpr.bit name i)
        ∈ (firstOccs (items.filter isBitB)).filter (fun b => items.count b % 2 == 1) :=
      List.mem_filter.mpr ⟨mem_firstOccs_of_mem _ _ hmem1, by simp [hodd]⟩
    have hnd : ((firstOccs (items.filter isBitB)).filter
        (fun b => items.count b % 2 == 1)).Nodup :=
      List.Nodup.filter _ (firstOccs_nodup _)
    rw [List.count_eq_one_of_mem hnd hmem2, if_pos hodd]
  · have hz : ((firstOccs (items.filter isBitB)).filter
        (fun b => items.count b % 2 == 1)).count (BitExpr.bit name i) = 0 := by
      rw [List.count_eq_zero]
      intro hmem
      have h2 := (List.mem_filter.mp hmem).2
      simp [hodd] at h2
    rw [hz, if_neg hodd]

theorem count_newItems_constTrue (items : List BitExpr) :
    ((items.filter (fun e => !isBitB e && !isConstB e))
      ++ (firstOccs (items.filter isBitB)).filter (fun b => items.count b % 2 == 1)
      ++ (if items.count (BitExpr.const true) % 2 == 1
          then [BitExpr.const true] else [])).count (BitExpr.const true)
      = if items.count (BitExpr.const true) % 2 = 1 then 1 else 0 := by
  rw [List.count_append, List.count_append,
    List.count_eq_zero.mpr (fun hmem => by
      have h1 := List.of_mem_filter hmem
      simp [isConstB] at h1),
    count_oddBits_nonbit items (BitExpr.const true) rfl]
  by_cases hodd : items.count (BitExpr.const true) % 2 = 1
  · rw [if_pos (by simp [hodd] : (items.count (BitExpr.const true) % 2 == 1) = true),
      if_pos hodd, List.count_singleton]
    simp
  · rw [if_neg (by simp [hodd] : ¬(items.count (BitExpr.const true) % 2 == 1) = true),
      if_neg hodd]
    rfl

theorem count_newItems_other (items : List BitExpr) (x : BitExpr)
    (hxb : isBitB x = false) (hxc : isConstB x = false) :
    ((items.filter (fun e => !isBitB e && !isConstB e))
      ++ (firstOccs (items.filter isBitB)).filter (fun b => items.count b % 2 == 1)
      ++ (if items.count (BitExpr.const true) % 2 == 1
          then [BitExpr.const true] else [])).count x = items.count x := by
  rw [List.count_append, List.count_append, count_oddBits_nonbit items x hxb,
    count_ones_ne items x (fun hh => by rw [hh] at hxc; simp [isConstB] at hxc),
    List.count_filter (by rw [hxb, hxc]; rfl)]
  omega

theorem count_newItems_constFalse (items : List BitExpr) :
    ((items.filter (fun e => !isBitB e && !isConstB e))
      ++ (firstOccs (items.filter isBitB)).filter (fun b => items.count b % 2 == 1)
      ++ (if items.count (BitExpr.const true) % 2 == 1
          then [BitExpr.const true] else [])).count (BitExpr.const false) = 0 := by
  rw [List.count_append, List.count_append,
    List.count_eq_zero.mpr (fun hmem => by
      have h1 := List.of_mem_filter hmem
      simp [isConstB] at h1),
    count_oddBits_nonbit items (BitExpr.const false) rfl,
    count_ones_ne items (BitExpr.const false) (by decide)]

theorem optimizeItems_of_newNil (items : List BitExpr) (s : Bool)
    (hnil : (items.filter (fun e => !isBitB e && !isConstB e))
      ++ (firstOccs (items.filter isBitB)).filter (fun b => items.count b % 2 == 1)
      ++ (if items.count (BitExpr.const true) % 2 == 1
          then [BitExpr.const true] else []) = []) :
    XOR.optimizeItems items s = [BitExpr.const false] := by
  simp only [XOR.optimizeItems]
  rw [hnil]
  cases s
  · rfl
  · rfl

/-- C3: for every operand list given to `XOR.optimize` with either sort
setting: each distinct `Bit` appears in the result iff its occurrence count
is odd; exactly one `ConstBit(1)` is kept iff the number of one-constants
is odd; operands that are neither `Bit` nor `ConstBit` keep their
multiplicity; a `ConstBit(0)` occurs only as the single operand of a fully
cancelled result; and when nothing remains the result is `[ConstBit(0)]`. -/
theorem xor_optimize_characterization (items : List BitExpr) (s : Bool) :
    (∀ name i, (BitExpr.bit name i) ∈ XOR.optimizeItems items s
        ↔ items.count (BitExpr.bit name i) % 2 = 1)
    ∧ ((XOR.optimizeItems items s).count (BitExpr.const true)
        = if items.count (BitExpr.const true) % 2 = 1 then 1 else 0)
    ∧ (∀ e, isBitB e = false → isConstB e = false →
        (XOR.optimizeItems items s).count e = items.count e)
    ∧ ((BitExpr.const false) ∈ XOR.optimizeItems items s
        ↔ XOR.optimizeItems items s = [BitExpr.const false])
    ∧ ((items.filter (fun e => !isBitB e && !isConstB e) = [] ∧
          (∀ name i, items.count (BitExpr.bit name i) % 2 = 0) ∧
          items.count (BitExpr.const true) % 2 = 0)
        → XOR.optimizeItems items s = [BitExpr.const false]) := by
  by_cases hnil : (items.filter (fun e => !isBitB e && !isConstB e))
      ++ (firstOccs (items.filter isBitB)).filter (fun b => items.count b % 2 == 1)
      ++ (if items.count (BitExpr.const true) % 2 == 1
          then [BitExpr.const true] else []) = []
  · have hres := optimizeItems_of_newNil items s hnil
    have hAB := (List.append_eq_nil.mp hnil).1
    have hC := (List.append_eq_nil.mp hnil).2
    have hA := (List.append_eq_nil.mp hAB).1
    have hB := (List.append_eq_nil.mp hAB).2
    refine ⟨?_, ?_, ?_, ?_, ?_⟩
    · intro name i
      rw [hres]
      simp only [List.mem_singleton]
      constructor
      · intro hh
        exact absurd hh (by simp)
      · intro hodd
        exfalso
        have hmem0 : (BitExpr.bit name i) ∈ items := List.count_pos_iff.mp (by omega)
        have hmem2 : (BitExpr.bit name i) ∈ (firstOccs (items.filter isBitB)).filter
            (fun b => items.count b % 2 == 1) :=
          List.mem_filter.mpr ⟨mem_firstOccs_of_mem _ _
            (List.mem_filter.mpr ⟨hmem0, rfl⟩), by simp [hodd]⟩
        rw [hB] at hmem2
        simp at hmem2
    · rw [hres]
      have hodd0 : ¬(items.count (BitExpr.const true) % 2 = 1) := by
        intro hcc
        rw [if_pos (by simp [hcc])] at hC
        simp at hC
      rw [if_neg hodd0]
      decide
    · intro e hxb hxc
      rw [hres]
      have h00 : List.count e (List.filter (fun e2 => !isBitB e2 && !isConstB e2) items)
          = List.count e items := List.count_filter (by rw [hxb, hxc]; rfl)
      rw [hA] at h00
      simp only [List.count_nil] at h00
      rw [← h00, List.count_eq_zero]
      intro hmem
      rw [List.mem_singleton] at hmem
      rw [hmem] at hxc
      simp [isConstB] at hxc
    · rw [hres]
      simp
    · intro _
      exact hres
  · refine ⟨?_, ?_, ?_, ?_, ?_⟩
    · intro name i
      have hc := count_optimizeItems items s (BitExpr.bit name i)
      rw [if_neg hnil, count_newItems_bit] at hc
      constructor
      · intro hmem
        have hpos : 0 < (XOR.optimizeItems items s).count (BitExpr.bit name i) :=
          List.count_pos_iff.mpr hmem
        by_cases hodd : items.count (BitExpr.bit name i) % 2 = 1
        · exact hodd
        · rw [if_neg hodd] at hc
          omega
      · intro hodd
        refine List.count_pos_iff.mp ?_
        rw [hc, if_pos hodd]
        omega
    · have hc := count_optimizeItems items s (BitExpr.const true)
      rw [if_neg hnil, count_newItems_constTrue] at hc
      exact hc
    · intro e hxb hxc
      have hc := count_optimizeItems items s e
      rw [if_neg hnil, count_newItems_other items e hxb hxc] at hc
      exact hc
    · have hc := count_optimizeItems items s (BitExpr.const false)
      rw [if_neg hnil, count_newItems_constFalse] at hc
      constructor
      · intro hmem
        exact absurd (List.count_pos_iff.mpr hmem) (by omega)
      · intro heq
        rw [heq] at hc
        simp [List.count_singleton] at hc
    · intro hhyp
      exfalso
      apply hnil
      obtain ⟨hA, hBits, hOnes⟩ := hhyp
      rw [hA]
      have hB : (firstOccs (items.filter isBitB)).filter
          (fun b => items.count b % 2 == 1) = [] := by
        rw [List.filter_eq_nil_iff]
        intro a ha
        have haf : a ∈ items.filter isBitB := (firstOccs_sublist _).subset ha
        have hab := List.of_mem_filter haf
        cases a with
        | bit name i => simp [hBits name i]
        | const v => simp [isBitB] at hab
        | xor l => simp [isBitB] at hab
      rw [hB]
      rw [if_neg (by simp [hOnes] : ¬(items.count (BitExpr.const true) % 2 == 1) = true)]
      rfl

/-! ### Injectivity of the Bit sort keys -/

theorem digitChar_ne_underscore (d : Nat) : digitChar d ≠ '_' := by
  unfold digitChar
  split <;> decide

theorem digitChar_inj_lt : ∀ a < 10, ∀ b < 10, digitChar a = digitChar b → a = b := by
  decide

theorem digitChar_zero_lt : ∀ a < 10, digitChar a = '0' → a = 0 := by
  decide

theorem natDigits_ne_nil (n : Nat) : natDigits n ≠ [] := by
  rw [natDigits]
  split
  · simp
  · simp

theorem natDigits_all_digits : ∀ n : Nat, ∀ c ∈ natDigits n, ∃ d, d < 10 ∧ c = digitChar d
  | n, c, h => by
    rw [natDigits] at h
    split at h
    · next hlt =>
      rw [List.mem_singleton] at h
      exact ⟨n, hlt, h⟩
    · next hge =>
      rcases List.mem_append.mp h with h2 | h2
      · exact natDigits_all_digits (n / 10) c h2
      · rw [List.mem_singleton] at h2
        exact ⟨n % 10, Nat.mod_lt _ (by omega), h2⟩
termination_by n => n
decreasing_by exact Nat.div_lt_self (by omega) (by omega)

theorem underscore_not_mem_natDigits (n : Nat) : '_' ∉ natDigits n := by
  intro h
  obtain ⟨d, _, hd⟩ := natDigits_all_digits n '_' h
  exact digitChar_ne_underscore d hd.symm

theorem natDigits_head_zero : ∀ n : Nat, (natDigits n).head? = some '0' → n = 0
  | n, h => by
    rw [natDigits] at h
    split at h
    · next hlt =>
      simp only [List.head?_cons, Option.some.injEq] at h
      exact digitChar_zero_lt n hlt h
    · next hge =>
      rw [List.head?_append_of_ne_nil _ (natDigits_ne_nil _)] at h
      have h0 := natDigits_head_zero (n / 10) h
      omega
termination_by n => n
decreasing_by exact Nat.div_lt_self (by omega) (by omega)

theorem natDigits_zero : natDigits 0 = ['0'] := by
  rw [natDigits]
  rfl

theorem natDigits_len_ge (n : Nat) : 1 ≤ (natDigits n).length := by
  rcases h : natDigits n with _ | ⟨x, xs⟩
  · exact absurd h (natDigits_ne_nil n)
  · simp

theorem natDigits_lt10 (n : Nat) (h : n < 10) : natDigits n = [digitChar n] := by
  rw [natDigits]
  rw [dif_pos h]

theorem natDigits_ge10 (n : Nat) (h : ¬n < 10) :
    natDigits n = natDigits (n / 10) ++ [digitChar (n % 10)] := by
  conv_lhs => rw [natDigits]
  rw [dif_neg h]

theorem natDigits_inj : ∀ a b : Nat, natDigits a = natDigits b → a = b
  | a, b, h => by
    by_cases ha : a < 10 <;> by_cases hb : b < 10
    · rw [natDigits_lt10 a ha, natDigits_lt10 b hb, List.cons.injEq] at h
      exact digitChar_inj_lt a ha b hb h.1
    · exfalso
      rw [natDigits_lt10 a ha, natDigits_ge10 b hb] at h
      have hlen := congrArg List.length h
      simp only [List.length_append, List.length_cons, List.length_nil] at hlen
      have := natDigits_len_ge (b / 10)
      omega
    · exfalso
      rw [natDigits_ge10 a ha, natDigits_lt10 b hb] at h
      have hlen := congrArg List.length h
      simp only [List.length_append, List.length_cons, List.length_nil] at hlen
      have := natDigits_len_ge (a / 10)
      omega
    · rw [natDigits_ge10 a ha, natDigits_ge10 b hb] at h
      have hlen := congrArg List.length h
      simp at hlen
      have h2 := List.append_inj h (by omega)
      have hdiv := natDigits_inj (a / 10) (b / 10) h2.1
      have hmod : a % 10 = b % 10 := by
        have h3 := h2.2
        rw [List.cons.injEq] at h3
        exact digitChar_inj_lt _ (Nat.mod_lt _ (by omega)) _ (Nat.mod_lt _ (by omega)) h3.1
      omega
termination_by a => a
decreasing_by exact Nat.div_lt_self (by omega) (by omega)

theorem underscore_not_mem_pad7 (n : Nat) : '_' ∉ pad7 n := by
  rw [pad7]
  intro h
  rcases List.mem_append.mp h with h2 | h2
  · have := List.eq_of_mem_replicate h2
    simp at this
  · exact underscore_not_mem_natDigits n h2

theorem pad7_case (a b : Nat) (hle : (natDigits a).length ≤ (natDigits b).length)
    (h : pad7 a = pad7 b) : a = b := by
  rw [pad7, pad7] at h
  by_cases hz : 7 - (natDigits a).length = 7 - (natDigits b).length
  · have h2 := List.append_inj h (by simp [hz])
    exact natDigits_inj a b h2.2
  · have hz2 : 7 - (natDigits b).length < 7 - (natDigits a).length := by omega
    set k := (7 - (natDigits a).length) - (7 - (natDigits b).length) with hk
    have hsplit : List.replicate (7 - (natDigits a).length) '0'
        = List.replicate (7 - (natDigits b).length) '0' ++ List.replicate k '0' := by
      rw [← List.replicate_add]
      congr 1
      omega
    rw [hsplit, List.append_assoc] at h
    have h3 := List.append_cancel_left h
    have hk1 : 1 ≤ k := by omega
    have hhead : (natDigits b).head? = some '0' := by
      rw [← h3]
      rcases Nat.exists_eq_add_of_le hk1 with ⟨k2, hk2⟩
      rw [hk2, List.replicate_add]
      simp [List.replicate_succ]
    have hb0 : b = 0 := natDigits_head_zero b hhead
    exfalso
    have hbl : (natDigits b).length = 1 := by rw [hb0, natDigits_zero]; rfl
    have hal := natDigits_len_ge a
    omega

theorem pad7_inj (a b : Nat) (h : pad7 a = pad7 b) : a = b := by
  rcases Nat.le_total (natDigits a).length (natDigits b).length with hle | hle
  · exact pad7_case a b hle h
  · exact (pad7_case b a hle h.symm).symm

theorem append_sep_inj : ∀ (a c b d : List Char), '_' ∉ b → '_' ∉ d →
    a ++ '_' :: b = c ++ '_' :: d → a = c ∧ b = d
  | [], [], b, d, _, _, h => by
    rw [List.nil_append, List.nil_append, List.cons.injEq] at h
    exact ⟨rfl, h.2⟩
  | [], x :: c, b, d, hb, _, h => by
    exfalso
    rw [List.nil_append, List.cons_append, List.cons.injEq] at h
    apply hb
    rw [h.2]
    exact List.mem_append_right _ (List.mem_cons_self _ _)
  | x :: a, [], b, d, _, hd, h => by
    exfalso
    rw [List.nil_append, List.cons_append, List.cons.injEq] at h
    apply hd
    rw [← h.2]
    exact List.mem_append_right _ (List.mem_cons_self _ _)
  | x :: a, y :: c, b, d, hb, hd, h => by
    rw [List.cons_append, List.cons_append, List.cons.injEq] at h
    have h2 := append_sep_inj a c b d hb hd h.2
    exact ⟨by rw [h.1, h2.1], h2.2⟩

theorem bitKey_inj (n1 : String) (i1 : Nat) (n2 : String) (i2 : Nat)
    (h : sortKeyChars (BitExpr.bit n1 i1) = sortKeyChars (BitExpr.bit n2 i2)) :
    n1 = n2 ∧ i1 = i2 := by
  rw [sortKeyChars, sortKeyChars] at h
  have h2 := append_sep_inj n1.data n2.data (pad7 i1) (pad7 i2)
    (underscore_not_mem_pad7 i1) (underscore_not_mem_pad7 i2) h
  refine ⟨?_, pad7_inj i1 i2 h2.2⟩
  cases n1
  cases n2
  exact congrArg String.mk h2.1

theorem bitKey_ne_constTrue (n : String) (i : Nat) :
    sortKeyChars (BitExpr.bit n i) ≠ sortKeyChars (BitExpr.const true) := by
  rw [sortKeyChars, sortKeyChars]
  intro h
  have hmem : '_' ∈ n.data ++ '_' :: pad7 i :=
    List.mem_append_right _ (List.mem_cons_self _ _)
  rw [h] at hmem
  simp at hmem

/-! ### Idempotence of the simplification pass -/

mutual

theorem flattenOne_leaves (e : BitExpr) : ∀ x ∈ flattenOne e,
    isBitB x = true ∨ isConstB x = true := by
  match e with
  | .bit n i =>
    intro x hx
    rw [flattenOne, List.mem_singleton] at hx
    subst hx
    exact Or.inl rfl
  | .const v =>
    intro x hx
    rw [flattenOne, List.mem_singleton] at hx
    subst hx
    exact Or.inr rfl
  | .xor items =>
    intro x hx
    rw [flattenOne] at hx
    exact flattenList_leaves items x hx

theorem flattenList_leaves (l : List BitExpr) : ∀ x ∈ flattenList l,
    isBitB x = true ∨ isConstB x = true := by
  match l with
  | [] =>
    intro x hx
    rw [flattenList] at hx
    exact absurd hx (List.not_mem_nil x)
  | y :: ys =>
    intro x hx
    rw [flattenList] at hx
    rcases List.mem_append.mp hx with h | h
    · exact flattenOne_leaves y x h
    · exact flattenList_leaves ys x h

end

theorem flattenOne_leaf (x : BitExpr) (hx : isBitB x = true ∨ isConstB x = true) :
    flattenOne x = [x] := by
  cases x with
  | bit n i => rfl
  | const v => rfl
  | xor items => rcases hx with h | h <;> simp [isBitB, isConstB] at h

theorem flattenList_of_leaves (l : List BitExpr)
    (hl : ∀ x ∈ l, isBitB x = true ∨ isConstB x = true) :
    flattenList l = l := by
  induction l with
  | nil => rfl
  | cons y ys ih =>
    rw [flattenList, flattenOne_leaf y (hl y (List.mem_cons_self y ys)),
      ih (fun x hx => hl x (List.mem_cons_of_mem y hx))]
    rfl

theorem bit_ne_constTrue (b : BitExpr) (hb : isBitB b = true) :
    b ≠ BitExpr.const true := by
  cases b with
  | bit n i => intro h; cases h
  | const v => simp [isBitB] at hb
  | xor its => simp [isBitB] at hb

theorem optimizeItems_unfold (l : List BitExpr) (s : Bool) :
    XOR.optimizeItems l s
      = (if (if s then ((l.filter (fun e => !isBitB e && !isConstB e))
              ++ (firstOccs (l.filter isBitB)).filter (fun b => l.count b % 2 == 1)
              ++ (if l.count (BitExpr.const true) % 2 == 1
                  then [BitExpr.const true] else [])).insertionSort keyLe
            else ((l.filter (fun e => !isBitB e && !isConstB e))
              ++ (firstOccs (l.filter isBitB)).filter (fun b => l.count b % 2 == 1)
              ++ (if l.count (BitExpr.const true) % 2 == 1
                  then [BitExpr.const true] else []))).isEmpty
         then [BitExpr.const false]
         else (if s then ((l.filter (fun e => !isBitB e && !isConstB e))
              ++ (firstOccs (l.filter isBitB)).filter (fun b => l.count b % 2 == 1)
              ++ (if l.count (BitExpr.const true) % 2 == 1
                  then [BitExpr.const true] else [])).insertionSort keyLe
            else ((l.filter (fun e => !isBitB e && !isConstB e))
              ++ (firstOccs (l.filter isBitB)).filter (fun b => l.count b % 2 == 1)
              ++ (if l.count (BitExpr.const true) % 2 == 1
                  then [BitExpr.const true] else [])))) := rfl

theorem optimizeItems_leaves (l : List BitExpr) (s : Bool)
    (hl : ∀ x ∈ l, isBitB x = true ∨ isConstB x = true) :
    ∀ x ∈ XOR.optimizeItems l s, isBitB x = true ∨ isConstB x = true := by
  intro x hx
  rw [optimizeItems_unfold] at hx
  by_cases hemp : (if s then ((l.filter (fun e => !isBitB e && !isConstB e))
        ++ (firstOccs (l.filter isBitB)).filter (fun b => l.count b % 2 == 1)
        ++ (if l.count (BitExpr.const true) % 2 == 1
            then [BitExpr.const true] else [])).insertionSort keyLe
      else ((l.filter (fun e => !isBitB e && !isConstB e))
        ++ (firstOccs (l.filter isBitB)).filter (fun b => l.count b % 2 == 1)
        ++ (if l.count (BitExpr.const true) % 2 == 1
            then [BitExpr.const true] else []))).isEmpty
  · rw [if_pos hemp, List.mem_singleton] at hx
    subst hx
    exact Or.inr rfl
  · rw [if_neg hemp] at hx
    have hx2 : x ∈ (l.filter (fun e => !isBitB e && !isConstB e))
        ++ (firstOccs (l.filter isBitB)).filter (fun b => l.count b % 2 == 1)
        ++ (if l.count (BitExpr.const true) % 2 == 1
            then [BitExpr.const true] else []) := by
      cases s
      · simpa using hx
      · exact (List.perm_insertionSort keyLe _).subset (by simpa using hx)
    rcases List.mem_append.mp hx2 with h12 | h3
    · rcases List.mem_append.mp h12 with h1 | h2
      · exact hl x (List.mem_filter.mp h1).1
      · have h4 : x ∈ l.filter isBitB :=
          (firstOccs_sublist _).subset (List.mem_filter.mp h2).1
        exact Or.inl (List.of_mem_filter h4)
    · revert h3
      split
      · intro h3
        rw [List.mem_singleton] at h3
        subst h3
        exact Or.inr rfl
      · intro h3
        exact absurd h3 (List.not_mem_nil x)

theorem optimizeItems_constFalse (s : Bool) :
    XOR.optimizeItems [BitExpr.const false] s = [BitExpr.const false] := by
  have hbe : (BitExpr.const false == BitExpr.const true) = false := rfl
  cases s <;>
    simp [XOR.optimizeItems, firstOccs, isBitB, isConstB, List.insertionSort,
      List.count, List.countP, List.countP.go, hbe]

theorem eq_of_perm_sorted_distinct (l1 l2 : List BitExpr)
    (hp : l1.Perm l2) (hs1 : l1.Sorted keyLe) (hs2 : l2.Sorted keyLe)
    (hd : l1.Pairwise (fun a b => sortKeyChars a ≠ sortKeyChars b)) : l1 = l2 := by
  have hd2 : l2.Pairwise (fun a b => sortKeyChars a ≠ sortKeyChars b) :=
    (List.Perm.pairwise_iff (fun h => Ne.symm h) hp).mp hd
  haveI : IsAntisymm BitExpr (fun a b => keyLe a b ∧ sortKeyChars a ≠ sortKeyChars b) :=
    ⟨fun a b hab hba => absurd (charListLe_antisymm _ _ hab.1 hba.1) hab.2⟩
  exact List.eq_of_perm_of_sorted hp (List.Pairwise.and hs1 hd) (List.Pairwise.and hs2 hd2)

theorem pairwise_keys_bits_ones (B C : List BitExpr)
    (hBbits : ∀ x ∈ B, isBitB x = true) (hBnd : B.Nodup)
    (hC : C = [] ∨ C = [BitExpr.const true]) :
    (B ++ C).Pairwise (fun a b => sortKeyChars a ≠ sortKeyChars b) := by
  rw [List.pairwise_append]
  refine ⟨?_, ?_, ?_⟩
  · refine List.Pairwise.imp_of_mem ?_ hBnd
    intro a b ha hb hne hk
    have ha2 := hBbits a ha
    have hb2 := hBbits b hb
    cases a with
    | const v => simp [isBitB] at ha2
    | xor its => simp [isBitB] at ha2
    | bit n1 i1 =>
      cases b with
      | const v => simp [isBitB] at hb2
      | xor its => simp [isBitB] at hb2
      | bit n2 i2 =>
        rcases bitKey_inj n1 i1 n2 i2 hk with ⟨h1, h2⟩
        exact hne (by rw [h1, h2])
  · rcases hC with h | h <;> rw [h]
    · exact List.Pairwise.nil
    · exact List.pairwise_singleton _ _
  · intro a ha b hb hk
    have ha2 := hBbits a ha
    have hb2 : b = BitExpr.const true := by
      rcases hC with h | h <;> rw [h] at hb
      · exact absurd hb (List.not_mem_nil _)
      · exact List.mem_singleton.mp hb
    subst hb2
    cases a with
    | const v => simp [isBitB] at ha2
    | xor its => simp [isBitB] at ha2
    | bit n i => exact bitKey_ne_constTrue n i hk

theorem optimizeItems_idem (l : List BitExpr) (s : Bool)
    (hl : ∀ x ∈ l, isBitB x = true ∨ isConstB x = true) :
    XOR.optimizeItems (XOR.optimizeItems l s) s = XOR.optimizeItems l s := by
  rw [optimizeItems_unfold l s]
  set B := (firstOccs (l.filter isBitB)).filter (fun b => l.count b % 2 == 1) with hBdef
  set C := (if l.count (BitExpr.const true) % 2 == 1
      then [BitExpr.const true] else []) with hCdef
  have hAnil : l.filter (fun e => !isBitB e && !isConstB e) = [] := by
    rw [List.filter_eq_nil_iff]
    intro x hx
    rcases hl x hx with h | h <;> simp [h]
  rw [hAnil, List.nil_append]
  have hBbits : ∀ x ∈ B, isBitB x = true := by
    intro x hx
    rw [hBdef] at hx
    exact List.of_mem_filter ((firstOccs_sublist _).subset (List.mem_filter.mp hx).1)
  have hBnd : B.Nodup := by
    rw [hBdef]
    exact (firstOccs_nodup _).filter _
  have hCcases : C = [] ∨ C = [BitExpr.const true] := by
    rw [hCdef]
    split
    · exact Or.inr rfl
    · exact Or.inl rfl
  have hCcount : ∀ x : BitExpr, x ≠ BitExpr.const true → C.count x = 0 := by
    intro x hx
    rw [hCdef]
    exact count_ones_ne l x hx
  have hBnotct : BitExpr.const true ∉ B := by
    intro hmem
    have := hBbits _ hmem
    simp [isBitB] at this
  cases s with
  | false =>
    rw [if_neg Bool.false_ne_true]
    by_cases hemp : (B ++ C).isEmpty
    · rw [if_pos hemp]
      exact optimizeItems_constFalse false
    · rw [if_neg hemp]
      rw [optimizeItems_unfold (B ++ C) false]
      rw [if_neg Bool.false_ne_true]
      have hA2 : (B ++ C).filter (fun e => !isBitB e && !isConstB e) = [] := by
        rw [List.filter_eq_nil_iff]
        intro x hx
        rcases List.mem_append.mp hx with h | h
        · simp [hBbits x h]
        · have h2 : x = BitExpr.const true := by
            rcases hCcases with h3 | h3 <;> rw [h3] at h
            · exact absurd h (List.not_mem_nil _)
            · exact List.mem_singleton.mp h
          rw [h2]
          simp [isConstB]
      have hCf : C.filter isBitB = [] := by
        rw [List.filter_eq_nil_iff]
        intro x hx
        have h2 : x = BitExpr.const true := by
          rcases hCcases with h3 | h3 <;> rw [h3] at hx
          · exact absurd hx (List.not_mem_nil _)
          · exact List.mem_singleton.mp hx
        rw [h2]
        simp [isBitB]
      have hbits : (B ++ C).filter isBitB = B := by
        rw [List.filter_append, List.filter_eq_self.mpr hBbits, hCf, List.append_nil]
      rw [hA2, List.nil_append, hbits, firstOccs_eq_self B hBnd]
      have hodd : B.filter (fun b => (B ++ C).count b % 2 == 1) = B := by
        rw [List.filter_eq_self]
        intro b hb
        have h1 : (B ++ C).count b = 1 := by
          rw [List.count_append, List.count_eq_one_of_mem hBnd hb,
            hCcount b (bit_ne_constTrue b (hBbits b hb))]
        rw [h1]
        rfl
      have hct : (B ++ C).count (BitExpr.const true) = C.count (BitExpr.const true) := by
        rw [List.count_append, List.count_eq_zero.mpr hBnotct, Nat.zero_add]
      rw [hodd, hct]
      have hones : (if C.count (BitExpr.const true) % 2 == 1
          then [BitExpr.const true] else []) = C := by
        rcases hCcases with h | h <;> rw [h] <;> rfl
      rw [hones]
      rw [if_neg hemp]
  | true =>
    rw [if_pos rfl]
    by_cases hemp : ((B ++ C).insertionSort keyLe).isEmpty
    · rw [if_pos hemp]
      exact optimizeItems_constFalse true
    · rw [if_neg hemp]
      have hBCne : B ++ C ≠ [] := by
        intro h0
        apply hemp
        rw [h0]
        rfl
      have hperm : ((B ++ C).insertionSort keyLe).Perm (B ++ C) :=
        List.perm_insertionSort keyLe _
      set S := (B ++ C).insertionSort keyLe with hSdef
      rw [optimizeItems_unfold S true]
      rw [if_pos rfl]
      have hA2 : S.filter (fun e => !isBitB e && !isConstB e) = [] := by
        rw [List.filter_eq_nil_iff]
        intro x hx
        rcases List.mem_append.mp (hperm.subset hx) with h | h
        · simp [hBbits x h]
        · have h2 : x = BitExpr.const true := by
            rcases hCcases with h3 | h3 <;> rw [h3] at h
            · exact absurd h (List.not_mem_nil _)
            · exact List.mem_singleton.mp h
          rw [h2]
          simp [isConstB]
      have hCf : C.filter isBitB = [] := by
        rw [List.filter_eq_nil_iff]
        intro x hx
        have h2 : x = BitExpr.const true := by
          rcases hCcases with h3 | h3 <;> rw [h3] at hx
          · exact absurd hx (List.not_mem_nil _)
          · exact List.mem_singleton.mp hx
        rw [h2]
        simp [isBitB]
      have hbitsperm : (S.filter isBitB).Perm B := by
        have h1 := List.Perm.filter isBitB hperm
        rw [List.filter_append, List.filter_eq_self.mpr hBbits, hCf,
          List.append_nil] at h1
        exact h1
      have hnd2 : (S.filter isBitB).Nodup := hbitsperm.nodup_iff.mpr hBnd
      rw [hA2, List.nil_append, firstOccs_eq_self _ hnd2]
      have hodd : (S.filter isBitB).filter (fun b => S.count b % 2 == 1)
          = S.filter isBitB := by
        rw [List.filter_eq_self]
        intro b hb
        have hbB : b ∈ B := hbitsperm.subset hb
        have h1 : S.count b = 1 := by
          rw [hperm.count_eq, List.count_append, List.count_eq_one_of_mem hBnd hbB,
            hCcount b (bit_ne_constTrue b (hBbits b hbB))]
        rw [h1]
        rfl
      have hct : S.count (BitExpr.const true) = C.count (BitExpr.const true) := by
        rw [hperm.count_eq, List.count_append, List.count_eq_zero.mpr hBnotct,
          Nat.zero_add]
      rw [hodd, hct]
      have hones : (if C.count (BitExpr.const true) % 2 == 1
          then [BitExpr.const true] else []) = C := by
        rcases hCcases with h | h <;> rw [h] <;> rfl
      rw [hones]
      have hp2 : ((S.filter isBitB ++ C).insertionSort keyLe).Perm (B ++ C) :=
        (List.perm_insertionSort keyLe _).trans (hbitsperm.append_right C)
      have hemp2 : ¬ ((S.filter isBitB ++ C).insertionSort keyLe).isEmpty = true := by
        intro h1
        rw [List.isEmpty_iff] at h1
        have h2 := hp2.length_eq
        rw [h1] at h2
        exact hBCne (List.eq_nil_of_length_eq_zero h2.symm)
      rw [if_neg hemp2]
      have hd1 : ((S.filter isBitB ++ C).insertionSort keyLe).Pairwise
          (fun a b => sortKeyChars a ≠ sortKeyChars b) :=
        (List.Perm.pairwise_iff (fun h => Ne.symm h) hp2).mpr
          (pairwise_keys_bits_ones B C hBbits hBnd hCcases)
      exact eq_of_perm_sorted_distinct _ _ (hp2.trans hperm.symm)
        (List.sorted_insertionSort keyLe _)
        (by rw [hSdef]; exact List.sorted_insertionSort keyLe _) hd1

theorem optimizeNode_flatten_idem (s : Bool) (e : BitExpr) :
    BitExpr.optimizeNode s (BitExpr.flatten (BitExpr.optimizeNode s (BitExpr.flatten e)))
      = BitExpr.optimizeNode s (BitExpr.flatten e) := by
  cases e with
  | bit n i => rfl
  | const v => rfl
  | xor items =>
    rw [BitExpr.flatten, BitExpr.optimizeNode, BitExpr.flatten,
      flattenList_of_leaves _ (optimizeItems_leaves _ s (flattenList_leaves items)),
      BitExpr.optimizeNode,
      optimizeItems_idem _ s (flattenList_leaves items)]

/-- C5: simplification is idempotent: applying `Word.flatten` followed by
`Word.optimize` (with any fixed `sortLex` setting) a second time to a Word
that was already flattened and optimized with the same setting changes
nothing — every bit position holds the same expression as before. -/
theorem simplification_idempotent (s : Bool) (w : List BitExpr) :
    Word.optimize s (Word.flatten (Word.optimize s (Word.flatten w)))
      = Word.optimize s (Word.flatten w) := by
  induction w with
  | nil => rfl
  | cons x xs ih =>
    simp only [Word.flatten, Word.optimize, List.map_cons]
    rw [List.cons.injEq]
    exact ⟨optimizeNode_flatten_idem s x,
      by simpa only [Word.flatten, Word.optimize] using ih⟩

/-- C6: generation is deterministic: two generator runs whose configurations
agree on the polynomial, both widths, the shift direction, the optimization
flag set and the variable names produce structurally identical Words. -/
theorem generation_deterministic (g1 g2 : CrcGen) (dv1 cv1 dv2 cv2 : String)
    (hP : g1.P = g2.P) (hn : g1.nrCrcBits = g2.nrCrcBits)
    (hm : g1.nrDataBits = g2.nrDataBits) (hsr : g1.shiftRight = g2.shiftRight)
    (hopt : g1.optimize = g2.optimize) (hdv : dv1 = dv2) (hcv : cv1 = cv2) :
    CrcGen.gen g1 dv1 cv1 = CrcGen.gen g2 dv2 cv2 := by
  have hg : g1 = g2 := by
    cases g1
    cases g2
    rw [CrcGen.mk.injEq]
    exact ⟨hP, hn, hm, hsr, hopt⟩
  rw [hg, hdv, hcv]

theorem generation_deterministic_witness :
    CrcGen.gen ⟨3, 4, 4, false, 7⟩ "data" "crc"
      = CrcGen.gen ⟨3, 4, 4, false, 7⟩ "data" "crc" :=
  generation_deterministic ⟨3, 4, 4, false, 7⟩ ⟨3, 4, 4, false, 7⟩
    "data" "crc" "data" "crc" rfl rfl rfl rfl rfl rfl rfl

/-! ### The final sorting pass -/

theorem beq_eq_beqExpr (a b : BitExpr) : (a == b) = beqExpr a b := by
  by_cases hab : a = b
  · subst hab
    rw [(beqExpr_iff a a).mpr rfl]
    exact beq_self_eq_true a
  · have h1 : (a == b) = false := beq_eq_false_iff_ne.mpr hab
    have h2 : beqExpr a b = false := by
      cases h : beqExpr a b
      · rfl
      · exact absurd ((beqExpr_iff a b).mp h) hab
    rw [h1, h2]

theorem chainKeyLe_of_sorted : ∀ l : List BitExpr, l.Sorted keyLe → chainKeyLe l = true
  | [], _ => rfl
  | [_], _ => rfl
  | a :: b :: rest, h => by
    rw [chainKeyLe, Bool.and_eq_true]
    rcases List.pairwise_cons.mp h with ⟨h1, h2⟩
    exact ⟨h1 b (List.mem_cons_self _ _), chainKeyLe_of_sorted (b :: rest) h2⟩

theorem exprSorted_of_leaf (x : BitExpr) (hx : isBitB x = true ∨ isConstB x = true) :
    exprSorted x = true := by
  cases x with
  | bit n i => rfl
  | const v => rfl
  | xor its => rcases hx with h | h <;> simp [isBitB, isConstB] at h

theorem exprSortedList_of_leaves (l : List BitExpr)
    (hl : ∀ x ∈ l, isBitB x = true ∨ isConstB x = true) :
    exprSortedList l = true := by
  induction l with
  | nil => rfl
  | cons x xs ih =>
    rw [exprSortedList, Bool.and_eq_true]
    exact ⟨exprSorted_of_leaf x (hl x (List.mem_cons_self _ _)),
      ih fun y hy => hl y (List.mem_cons_of_mem x hy)⟩

theorem optimizeItems_chain_sorted (l : List BitExpr) :
    chainKeyLe (XOR.optimizeItems l true) = true := by
  rw [optimizeItems_unfold l true, if_pos rfl]
  generalize (l.filter (fun e => !isBitB e && !isConstB e)
      ++ (firstOccs (l.filter isBitB)).filter (fun b => l.count b % 2 == 1)
      ++ (if l.count (BitExpr.const true) % 2 == 1
          then [BitExpr.const true] else [])) = NEW
  split
  · rfl
  · exact chainKeyLe_of_sorted _ (List.sorted_insertionSort keyLe _)

theorem word_opt_flatten_sorted (w : List BitExpr) :
    exprSortedList (Word.optimize true (Word.flatten w)) = true := by
  induction w with
  | nil => rfl
  | cons x xs ih =>
    simp only [Word.flatten, Word.optimize, List.map_cons]
    rw [exprSortedList, Bool.and_eq_true]
    refine ⟨?_, by simpa only [Word.flatten, Word.optimize] using ih⟩
    cases x with
    | bit n i => rfl
    | const v => rfl
    | xor items =>
      rw [BitExpr.flatten, BitExpr.optimizeNode, exprSorted, Bool.and_eq_true]
      exact ⟨optimizeItems_chain_sorted _,
        exprSortedList_of_leaves _ (optimizeItems_leaves _ true (flattenList_leaves items))⟩

/-- C7 counterexample: with only `OPT_ELIMINATE|OPT_LEX` enabled
(`optimize = 6`, so `OPT_FLATTEN` is clear), the Word returned by
`CrcGen.gen` for a 2-bit CRC of 2 data bits contains an `XOR` node whose
operand list is NOT in ascending `sortKey` order: the final pass does not
guarantee sorted output for every flag set, refuting the original claim. -/
theorem final_sort_counterexample :
    (CrcGen.gen ⟨2, 2, 2, false, 6⟩ "data" "crc").map exprSortedList
      = Except.ok false := by
  simp [CrcGen.gen, CrcGen.optWord, CrcGen.OPT_FLATTEN, CrcGen.OPT_ELIMINATE,
    CrcGen.OPT_LEX, CrcGen.stepLeft, CrcGen.stepRight, CrcGen.xorP, Word.flatten,
    Word.optimize, BitExpr.optimizeNode, BitExpr.flatten, flattenOne, flattenList,
    XOR.optimizeItems, firstOccs, isBitB, isConstB, List.insertionSort,
    List.orderedInsert, keyLe, charListLe, sortKeyChars, sortKeyList, joinKeys,
    pad7, natDigits, digitChar, List.count, List.countP, List.countP.go,
    exprSorted, exprSortedList, chainKeyLe, Except.map, List.range,
    List.range.loop, List.foldl, List.getD, Option.getD,
    beq_eq_beqExpr, beqExpr, beqExprList]

/-- C7 (amended): when `OPT_FLATTEN`, `OPT_ELIMINATE` and `OPT_LEX` are all
enabled, the final simplification pass of `CrcGen.gen` runs with
lexicographic sorting, so every `XOR` node of the returned Word has its
operand list in ascending `sortKey` order. -/
theorem final_pass_sorts (g : CrcGen) (dv cv : String) (w : List BitExpr)
    (hf : g.optimize &&& CrcGen.OPT_FLATTEN ≠ 0)
    (he : g.optimize &&& CrcGen.OPT_ELIMINATE ≠ 0)
    (hx : g.optimize &&& CrcGen.OPT_LEX ≠ 0)
    (hok : CrcGen.gen g dv cv = Except.ok w) :
    exprSortedList w = true := by
  rw [CrcGen.gen] at hok
  by_cases hval : g.nrCrcBits < 1 ∨ g.nrDataBits < 1
  · rw [if_pos hval] at hok
    exact absurd hok (by simp)
  · rw [if_neg hval] at hok
    simp only [Except.ok.injEq] at hok
    rw [← hok]
    simp only [CrcGen.optWord]
    rw [if_pos hf, if_pos he, decide_eq_true hx]
    exact word_opt_flatten_sorted _

theorem final_pass_sorts_witness :
    exprSortedList [BitExpr.xor [BitExpr.bit "crc" 0, BitExpr.bit "data" 0]] = true :=
  final_pass_sorts ⟨1, 1, 1, false, 7⟩ "data" "crc"
    [BitExpr.xor [BitExpr.bit "crc" 0, BitExpr.bit "data" 0]]
    (by decide) (by decide) (by decide)
    (by simp [CrcGen.gen, CrcGen.optWord, CrcGen.OPT_FLATTEN, CrcGen.OPT_ELIMINATE,
      CrcGen.OPT_LEX, CrcGen.stepLeft, CrcGen.stepRight, CrcGen.xorP, Word.flatten,
      Word.optimize, BitExpr.optimizeNode, BitExpr.flatten, flattenOne, flattenList,
      XOR.optimizeItems, firstOccs, isBitB, isConstB, List.insertionSort,
      List.orderedInsert, keyLe, charListLe, sortKeyChars, sortKeyList, joinKeys,
      pad7, natDigits, digitChar, List.count, List.countP, List.countP.go,
      Except.map, List.range, List.range.loop, List.foldl, List.getD, Option.getD,
      beq_eq_beqExpr, beqExpr, beqExprList])

/-- C8: generation fails fast with a configuration error exactly on the
invalid configurations: the polynomial range check of `main()` together
with the width validation at the top of `CrcGen.__gen` yields a Word iff
`nrCrcBits ≥ 1`, `nrDataBits ≥ 1` and the polynomial is at most
`2^nrCrcBits - 1`; otherwise an error value is returned and no Word is
ever produced. -/
theorem config_validation (g : CrcGen) (dv cv : String) :
    (mainGenerate g dv cv).isOk = true
      ↔ (1 ≤ g.nrCrcBits ∧ 1 ≤ g.nrDataBits ∧ g.P ≤ 2 ^ g.nrCrcBits - 1) := by
  have hpow : (1 <<< g.nrCrcBits) = 2 ^ g.nrCrcBits := Nat.one_shiftLeft _
  rw [mainGenerate]
  by_cases h1 : g.P > (1 <<< g.nrCrcBits) - 1
  · rw [if_pos h1]
    have hno : ¬ (1 ≤ g.nrCrcBits ∧ 1 ≤ g.nrDataBits ∧ g.P ≤ 2 ^ g.nrCrcBits - 1) := by
      rintro ⟨_, _, h3⟩
      rw [hpow] at h1
      omega
    simp [Except.isOk, Except.toBool, hno]
  · rw [if_neg h1]
    rw [CrcGen.gen]
    by_cases h2 : g.nrCrcBits < 1 ∨ g.nrDataBits < 1
    · rw [if_pos h2]
      simp only [Except.isOk, Except.toBool]
      constructor
      · intro h
        exact absurd h (by simp)
      · rintro ⟨ha, hb, _⟩
        rcases h2 with h2 | h2 <;> omega
    · rw [if_neg h2]
      simp only [not_or, Nat.not_lt] at h2
      constructor
      · intro _
        refine ⟨h2.1, h2.2, ?_⟩
        rw [hpow] at h1
        omega
      · intro _
        rfl

/-- C9: the polynomial conversion round-trips on the canonical CRC-8
polynomial: parsing the coefficient string "x^8 + x^2 + x + 1" at width 8
without bit reversal yields the integer 7 = 0x07, and rendering 7 back at
width 8 yields exactly the original string. -/
theorem poly_roundtrip_crc8 :
    poly2int "x^8 + x^2 + x + 1" 8 false = some 7
      ∧ int2poly 7 8 false = "x^8 + x^2 + x + 1" := by
  constructor
  · simp [poly2int, parsePolyValue, stripChars, lowerChars, pySpace, intSpace,
      pyInt, pyNormalize, decDigitVal, ndRunStarts, pyIntDigits, pyRunAux,
      pyDigitVal, parseTerm, orTerms, bitreverse, bitreverseAux, Option.map]
  · have h1 : (7 : Nat) &&& ((1 <<< 8) - 1) = 7 := by decide
    have h2 : polyTermsAux 7 0 = [['1'], ['x'], ['x', '^', '2']] := by
      simp [polyTermsAux, termChars, natDigits, digitChar]
    have h3 : natDigits 8 = ['8'] := by
      simp [natDigits, digitChar]
    simp only [int2poly, Bool.false_eq_true, if_false, h1, h2, h3]
    decide

theorem bitreverseAux_lt : ∀ (n v ret k : Nat), ret < 2 ^ k →
    bitreverseAux n v ret < 2 ^ (k + n)
  | 0, v, ret, k, h => by
    rw [bitreverseAux]
    simpa using h
  | n + 1, v, ret, k, h => by
    rw [bitreverseAux]
    have h2 : (ret <<< 1) ||| (v &&& 1) < 2 ^ (k + 1) := by
      apply Nat.or_lt_two_pow
      · rw [Nat.shiftLeft_eq, Nat.pow_one, pow_succ]
        omega
      · have hv : v &&& 1 ≤ 1 := Nat.and_le_right
        have h3 : 1 < 2 ^ (k + 1) := Nat.one_lt_two_pow_iff.mpr (by omega)
        omega
    have h3 := bitreverseAux_lt n (v >>> 1) ((ret <<< 1) ||| (v &&& 1)) (k + 1) h2
    rw [show k + 1 + n = k + (n + 1) from by omega] at h3
    exact h3

theorem bitreverse_lt (v nrBits : Nat) : bitreverse v nrBits < 2 ^ nrBits := by
  have h := bitreverseAux_lt nrBits v 0 0 (by decide)
  rw [bitreverse]
  simpa using h

/-- C10: for every polynomial string the parser accepts and every
`nrBits ≥ 1`, the value returned by `poly2int` is below `2^nrBits`:
acceptance never depends on `nrBits` (terms `x^k` with `k ≥ nrBits` are
silently discarded, not rejected), the accumulated value is masked with
`2^nrBits - 1`, and with `shiftRight` the masked value is additionally
bit-reversed within `nrBits` bits. -/
theorem poly2int_range_mask (s : String) (nrBits : Nat) (sr : Bool)
    (h1 : 1 ≤ nrBits) :
    (∀ v, poly2int s nrBits sr = some v → v < 2 ^ nrBits)
    ∧ (poly2int s nrBits sr).isSome = (parsePolyValue s.data).isSome
    ∧ poly2int s nrBits sr = (parsePolyValue s.data).map (fun poly =>
        if sr then bitreverse (poly % ((2 : Int) ^ nrBits)).toNat nrBits
        else (poly % ((2 : Int) ^ nrBits)).toNat) := by
  have hone : (1 <<< nrBits : Nat) = 2 ^ nrBits := Nat.one_shiftLeft _
  refine ⟨?_, ?_, ?_⟩
  · intro v hv
    rw [poly2int] at hv
    rcases hp : parsePolyValue s.data with _ | p
    · rw [hp] at hv
      exact absurd hv (by simp)
    · rw [hp] at hv
      simp only [Option.map, Option.some.injEq] at hv
      rw [hone] at hv
      have hpos : (0 : Int) < ((2 ^ nrBits : Nat) : Int) := by
        exact_mod_cast Nat.two_pow_pos nrBits
      have hlt := Int.emod_lt_of_pos p hpos
      have hnn := Int.emod_nonneg p (ne_of_gt hpos)
      rw [← hv]
      cases sr
      · rw [if_neg Bool.false_ne_true]
        omega
      · rw [if_pos rfl]
        exact bitreverse_lt _ _
  · rw [poly2int]
    cases hp : parsePolyValue s.data
    · rfl
    · rfl
  · have hsh : (((1 <<< nrBits : Nat) : Int)) = (2 : Int) ^ nrBits := by
      rw [hone]
      push_cast
      rfl
    simp only [poly2int, hsh]

theorem poly2int_range_mask_witness :
    1 ≤ 8 ∧ ((∀ v, poly2int "0x1D" 8 true = some v → v < 2 ^ 8)
      ∧ (poly2int "0x1D" 8 true).isSome = (parsePolyValue "0x1D".data).isSome
      ∧ poly2int "0x1D" 8 true = (parsePolyValue "0x1D".data).map (fun poly =>
          if true then bitreverse (poly % ((2 : Int) ^ 8)).toNat 8
          else (poly % ((2 : Int) ^ 8)).toNat)) :=
  ⟨by decide, poly2int_range_mask "0x1D" 8 true (by decide)⟩
